import Mathlib

/-!
Verification development for the `afs` filesystem utility crate.

The Rust sources (src/lib.rs) are shallowly embedded here, specialised to the
Unix (`cfg(unix)`) platform family, which is the platform the specification's
concrete scenarios use (root marker `/`, no drive prefixes).

Paths are modelled at the byte level (`List Nat`, one element per byte), because
the interesting questions about `resolve` concern the boundary between Rust
`&str` (guaranteed UTF-8) and `OsString` (arbitrary bytes on Unix): the final
`to_str` call of `resolve` and `get_filepath` succeeds exactly when the byte
sequence is valid UTF-8, and that check is modelled faithfully by `validUtf8`
below.  Byte 47 is `/`, byte 46 is `.`, byte 92 is `\`.

The `PathBuf` operations used by `resolve` (`components`, `is_absolute`,
`push`, `pop`) are reproduced from the Rust standard library's Unix
implementation of `std::path`:
  - `components` splits on `/`; repeated separators and interior `.` segments
    are dropped; a leading `/` yields a root component; a leading `.` (followed
    by a separator or the end) yields a current-directory component.
  - `push` of a normal segment appends, inserting `/` unless the buffer is
    empty or already ends with `/`; pushing an absolute path replaces the
    buffer.
  - `pop` truncates to `Path::parent`, which drops the last `..`/normal
    component found parsing from the back (skipping empty and `.` chunks), then
    trims trailing separators and `.` chunks; if only a root (or nothing)
    remains the pop is a no-op.
-/

namespace Afs

/-! ## UTF-8 validity of a byte sequence

`validUtf8` is the standard UTF-8 well-formedness predicate (RFC 3629 table):
it is what `OsStr::to_str` checks on Unix before yielding a `&str`. -/

/-- Is `b` a UTF-8 continuation byte (`0x80`–`0xBF`)? -/
def contB (b : Nat) : Bool := 0x80 ≤ b && b ≤ 0xBF

/-- Is `c` in the closed byte range `lo`–`hi`? -/
def inRange (lo hi c : Nat) : Bool := decide (lo ≤ c) && decide (c ≤ hi)

/-- Classification of a UTF-8 lead byte following the RFC 3629 table: `none`
for a byte that can never start a character, otherwise the number of
continuation bytes that must follow and the allowed range of the first of
them (any later continuation byte ranges over `0x80`–`0xBF`). -/
def leadSpec (b : Nat) : Option (Nat × Nat × Nat) :=
  if b ≤ 0x7F then some (0, 0, 0)
  else if 0xC2 ≤ b ∧ b ≤ 0xDF then some (1, 0x80, 0xBF)
  else if b = 0xE0 then some (2, 0xA0, 0xBF)
  else if (0xE1 ≤ b ∧ b ≤ 0xEC) ∨ b = 0xEE ∨ b = 0xEF then some (2, 0x80, 0xBF)
  else if b = 0xED then some (2, 0x80, 0x9F)
  else if b = 0xF0 then some (3, 0x90, 0xBF)
  else if 0xF1 ≤ b ∧ b ≤ 0xF3 then some (3, 0x80, 0xBF)
  else if b = 0xF4 then some (3, 0x80, 0x8F)
  else none

/-- UTF-8 validity of a byte list, following the RFC 3629 byte-range table
(this is the check behind `OsStr::to_str` on Unix). -/
def validUtf8 : List Nat → Bool
  | [] => true
  | b :: l =>
    match leadSpec b with
    | none => false
    | some (0, _, _) => validUtf8 l
    | some (1, lo, hi) =>
      match l with
      | c1 :: l1 => inRange lo hi c1 && validUtf8 l1
      | [] => false
    | some (2, lo, hi) =>
      match l with
      | c1 :: c2 :: l2 => inRange lo hi c1 && contB c2 && validUtf8 l2
      | _ => false
    | some (3, lo, hi) =>
      match l with
      | c1 :: c2 :: c3 :: l3 => inRange lo hi c1 && contB c2 && contB c3 && validUtf8 l3
      | _ => false
    | some _ => false

/-! ## Splitting a byte string on the path separator `/` (byte 47) -/

/-- Split a byte string at every occurrence of the separator byte 47 (`/`),
keeping empty chunks; mirrors how `std::path::Components` carves the body of a
Unix path.  Never returns an empty list of chunks. -/
def splitSep : List Nat → List (List Nat)
  | [] => [[]]
  | b :: rest =>
    if b = 47 then [] :: splitSep rest
    else
      match splitSep rest with
      | p :: ps => (b :: p) :: ps
      | [] => [[b]]

/-! ## Path components (Unix `std::path::Component`)

On Unix no `Prefix` component can occur, so the embedded component type has
only the four variants that `resolve` can actually receive there. -/

/-- Unix path component (`std::path::Component` without the Windows-only
drive-prefix variant, which is uninhabited on Unix). -/
inductive PComponent where
  | rootDir
  | curDir
  | parentDir
  | normal (seg : List Nat)
  deriving DecidableEq, Repr

/-- `std::path` `parse_single_component` on Unix: empty chunks and `.` chunks
are normalized away (yield no component), `..` is a parent-directory
component, anything else is a normal segment. -/
def parseSingle : List Nat → Option PComponent
  | [] => none
  | [46] => none
  | [46, 46] => some .parentDir
  | bs => some (.normal bs)

/-- `Components::include_cur_dir` on Unix: a path that is not absolute and
starts with `.` followed by a separator or the end keeps that leading `.` as a
current-directory component. -/
def includeCurDir (s : List Nat) : Bool :=
  decide (s.head? ≠ some 47) && (decide (s = [46]) || decide (s.take 2 = [46, 47]))

/-- `Components::len_before_body` on Unix: number of leading bytes (root `/`
or the kept leading `.`) that precede the body of the path. -/
def lenBeforeBody (s : List Nat) : Nat :=
  if s.head? = some 47 then 1 else if includeCurDir s then 1 else 0

/-- `Path::is_absolute` on Unix: the path has a root, i.e. starts with `/`. -/
def isAbsolute (s : List Nat) : Bool := s.head? = some 47

/-- `Path::components` on Unix, as a list: optional root / current-directory
marker followed by the parsed body chunks. -/
def components (s : List Nat) : List PComponent :=
  if s.head? = some 47 then
    .rootDir :: (splitSep s).filterMap parseSingle
  else if includeCurDir s then
    .curDir :: (splitSep s).filterMap parseSingle
  else
    (splitSep s).filterMap parseSingle

/-! ## `PathBuf::push` and `PathBuf::pop` (Unix) -/

/-- `PathBuf::push` on Unix: pushing an absolute path replaces the buffer;
otherwise the segment is appended, preceded by `/` unless the buffer is empty
or already ends with `/`. -/
def pbPush (buf name : List Nat) : List Nat :=
  if name.head? = some 47 then name
  else if buf = [] then name
  else if buf.getLast? = some 47 then buf ++ name
  else buf ++ [47] ++ name

/-- One step of `Components::parse_next_component_back` on Unix: split off the
raw chunk after the last separator of the body (the whole body if it has no
separator) and truncate the path before it.  Returns
`(truncated path, chunk)`. -/
def backSplit (s : List Nat) : List Nat × List Nat :=
  let body := s.drop (lenBeforeBody s)
  let chunk := (body.reverse.takeWhile (fun b => decide (b ≠ 47))).reverse
  let size := if chunk.length = body.length then chunk.length else chunk.length + 1
  (s.take (s.length - size), chunk)

/-- `Components::trim_right` on Unix (fuelled): repeatedly drop trailing chunks
that parse to no component (empty chunks from trailing separators and `.`
chunks) while the body is non-empty. -/
def trimRightAux : Nat → List Nat → List Nat
  | 0, s => s
  | fuel + 1, s =>
    if lenBeforeBody s < s.length then
      if parseSingle (backSplit s).2 = none then trimRightAux fuel (backSplit s).1 else s
    else s

/-- `Components::trim_right` with sufficient fuel (each step strictly shortens
the path, so `s.length` steps always suffice). -/
def trimRight (s : List Nat) : List Nat := trimRightAux s.length s

/-- Iterated `parse_next_component_back` (fuelled): scan raw chunks from the
back until one parses to a component.  `.inr (rem, c)` means component `c` was
found with the path truncated to `rem`; `.inl p` means the body was exhausted
with remaining path `p` (the iterator is then in its start-dir state). -/
def backParseLoop : Nat → List Nat → List Nat ⊕ (List Nat × PComponent)
  | 0, s => .inl s
  | fuel + 1, s =>
    if lenBeforeBody s < s.length then
      match parseSingle (backSplit s).2 with
      | some c => .inr ((backSplit s).1, c)
      | none => backParseLoop fuel (backSplit s).1
    else .inl s

/-- `Path::parent` on Unix: find the last real component from the back; a
normal, `..` or kept-`.` component is dropped (with trailing separator and `.`
chunks trimmed), while a bare root (or an empty path) has no parent. -/
def pbParent (s : List Nat) : Option (List Nat) :=
  match backParseLoop s.length s with
  | .inr (rem, _) => some (trimRight rem)
  | .inl p =>
    if s.head? = some 47 then none
    else if includeCurDir p then some p.dropLast
    else none

/-- `PathBuf::pop` on Unix: truncate to the parent; a pop with no parent is a
no-op. -/
def pbPop (s : List Nat) : List Nat :=
  match pbParent s with
  | some p => p
  | none => s

/-! ## `resolve` (src/lib.rs lines 539–579)

`resolve(base_str, input_str)`: if the input is absolute the buffer is replaced
by it verbatim; otherwise the buffer starts from `base_str` and the input's
components are folded left to right (`..` pops, a normal segment pushes, `.` is
a no-op, and the defensive root branch resets the buffer to `/`).  The final
`to_str` yields `Err` with the raw `OsString` when the bytes are not valid
UTF-8. -/

/-- One iteration of the `for component in input_path.components()` loop of
`resolve`. -/
def resolveStep (acc : List Nat) : PComponent → List Nat
  | .parentDir => pbPop acc
  | .normal name => pbPush acc name
  | .curDir => acc
  | .rootDir => [47]

/-- `resolve` from src/lib.rs on Unix.  `.error` carries the raw bytes of the
accumulated path when the final `to_str` conversion fails (the
`ok_or_else(|| resolved_path.into_os_string())` branch). -/
def resolve (base input : List Nat) : Except (List Nat) (List Nat) :=
  let out := if isAbsolute input then input
             else (components input).foldl resolveStep base
  if validUtf8 out then .ok out else .error out

/-! ## `normalize_path` and `get_filepath` (src/lib.rs lines 595–633)

`normalize_path` replaces every backslash by a forward slash.  Both characters
are ASCII and in valid UTF-8 every ASCII byte stands alone, so on the byte
level the `str::replace` is exactly a byte map. -/

/-- `normalize_path` from src/lib.rs: replace every `\` (byte 92) by `/`
(byte 47). -/
def normalize_path (s : List Nat) : List Nat :=
  s.map (fun b => if b = 92 then 47 else b)

/-- Error type of the embedded `get_filepath`: the `canonicalize` failure is
wrapped with the `Failed to canonicalize path` context (the spec's `NotFound`
kind), and a non-UTF-8 canonical path yields the invalid-Unicode error. -/
inductive GfpError where
  | notFound (cause : String)
  | invalidUnicode
  deriving DecidableEq, Repr

/-- `get_filepath` from src/lib.rs on Unix, parameterised by the platform
canonicalizer (`std::fs::canonicalize`), which is I/O: it is passed in as the
function `canon` from normalized path bytes to either the canonical path bytes
or the underlying I/O error message.  The Windows-only `\\?\` trimming is a
no-op on Unix and does not appear. -/
def get_filepath (canon : List Nat → Except String (List Nat)) (path : List Nat) :
    Except GfpError (List Nat) :=
  match canon (normalize_path path) with
  | .error e => .error (.notFound e)
  | .ok real => if validUtf8 real then .ok real else .error .invalidUnicode

/-! ## `chmod_sync` (src/lib.rs lines 478–501), non-POSIX branch

The `cfg(windows)` branch of `chmod_sync` parses the octal mode string with
`u32::from_str_radix(mode, 8)` and then calls
`permissions.set_readonly(mode & 0o444 == 0)`.  The parse and the flag
computation are pure and embedded exactly; the `set_permissions` call itself is
I/O and is represented by the `WinPermAction` value describing the flag that is
applied. -/

/-- Value of an octal digit character, if it is one (`from_str_radix` with
radix 8 accepts exactly `0`–`7`). -/
def octDigitVal (c : Char) : Option Nat :=
  if 48 ≤ c.toNat ∧ c.toNat ≤ 55 then some (c.toNat - 48) else none

/-- Digit loop of `u32::from_str_radix` for a non-negative parse: accumulate
base-8 digits with the `u32` overflow check (`checked_mul`/`checked_add`
against `2^32`). -/
def parseOctPos (acc : Nat) : List Char → Option Nat
  | [] => some acc
  | c :: rest =>
    match octDigitVal c with
    | none => none
    | some d => if acc * 8 + d < 4294967296 then parseOctPos (acc * 8 + d) rest else none

/-- Digit loop of `u32::from_str_radix` after a `-` sign on an unsigned type:
`checked_sub` keeps the accumulator at zero only while every digit is `0`, and
fails otherwise. -/
def parseOctNeg (acc : Nat) : List Char → Option Nat
  | [] => some acc
  | c :: rest =>
    match octDigitVal c with
    | none => none
    | some d => if acc = 0 ∧ d = 0 then parseOctNeg 0 rest else none

/-- `u32::from_str_radix(s, 8)`: an optional single leading `+`/`-` sign (a
bare sign or an empty string is an error), then at least one octal digit, with
overflow checked against `u32`. -/
def u32_from_str_radix8 (s : String) : Option Nat :=
  match s.data with
  | [] => none
  | ['+'] => none
  | ['-'] => none
  | '+' :: rest => parseOctPos 0 rest
  | '-' :: rest => parseOctNeg 0 rest
  | cs => parseOctPos 0 cs

/-- The action the non-POSIX branch of `chmod_sync` performs on the target's
permissions. -/
inductive WinPermAction where
  | setReadonly (flag : Bool)
  deriving DecidableEq, Repr

/-- The `cfg(windows)` branch of `chmod_sync`: parse the mode string as octal
(`Invalid mode` on failure) and set the read-only flag to the result of
`mode & 0o444 == 0` (`0o444 = 292`). -/
def chmod_sync_win (mode : String) : Except String WinPermAction :=
  match u32_from_str_radix8 mode with
  | some m => .ok (.setReadonly (decide (Nat.land m 292 = 0)))
  | none => .error ("Invalid mode: " ++ mode)

/-! ## `get_dir_size` (src/lib.rs lines 360–384)

The walker is embedded over a static tree of filesystem nodes.  `DirEntry`
metadata in both std and tokio does not traverse symlinks (it is an `lstat`),
so a symbolic-link entry reports `is_file = false`, `is_dir = false`,
`is_symlink = true` regardless of its target.  `read_dir` on the popped path
itself does follow symlinks (`opendir` semantics), which only matters for the
caller-supplied root.  The worklist is a LIFO stack exactly as in the source
(`Vec::push`/`Vec::pop` become cons/head on a list). -/

mutual
/-- A node of the modelled filesystem: a regular file with its byte length, a
symbolic link with its target, or a directory with its entries. -/
inductive FsNode where
  | file (size : Nat)
  | symlink (target : FsNode)
  | dir (entries : FsEntries)
  deriving DecidableEq
/-- Directory entries: a name/node association list. -/
inductive FsEntries where
  | nil
  | cons (name : String) (node : FsNode) (rest : FsEntries)
  deriving DecidableEq
end

/-- The metadata record `entry.metadata().await?` yields for a directory
entry: `lstat` semantics, so exactly one of the three type flags is set and a
symlink never reports as file or directory.  `len` for non-files is never read
by `get_dir_size` and is modelled as 0. -/
structure EntryMetadata where
  is_file : Bool
  is_dir : Bool
  is_symlink : Bool
  len : Nat
  deriving DecidableEq, Repr

/-- `DirEntry::metadata` (no symlink traversal). -/
def entryMetadata : FsNode → EntryMetadata
  | .file n => ⟨true, false, false, n⟩
  | .dir _ => ⟨false, true, false, 0⟩
  | .symlink _ => ⟨false, false, true, 0⟩

/-- Body of the inner `while let Some(entry) = entries.next_entry()` loop of
`get_dir_size`: add a regular file's length to the total; push a directory
that is not a symlink onto the stack; skip everything else. -/
def dirSizeStep (acc : Nat × List FsNode) (node : FsNode) : Nat × List FsNode :=
  let m := entryMetadata node
  if m.is_file then (acc.1 + m.len, acc.2)
  else if m.is_dir then
    if m.is_symlink = false then (acc.1, node :: acc.2) else acc
  else acc

/-- The inner entry loop of `get_dir_size` over a directory's listing. -/
def dirEntriesLoop : FsEntries → Nat × List FsNode → Nat × List FsNode
  | .nil, acc => acc
  | .cons _ node rest, acc => dirEntriesLoop rest (dirSizeStep acc node)

/-- `read_dir` on a node: follows symlinks (opendir semantics) and yields the
entries of a directory, failing on a regular file. -/
def readDirNode : FsNode → Option FsEntries
  | .dir es => some es
  | .symlink t => readDirNode t
  | .file _ => none

/-- Result of a `get_dir_size` run: the total, an I/O error (`read_dir` on a
non-directory), or fuel exhaustion of the fuelled loop (shown unreachable for
the fuel `get_dir_size` supplies). -/
inductive DirSizeResult where
  | ok (total : Nat)
  | ioError
  | outOfFuel
  deriving DecidableEq, Repr

/-- The outer `while let Some(path) = stack.pop()` loop of `get_dir_size`,
fuelled so that the definition is structurally recursive. -/
def get_dir_size_loop : Nat → List FsNode → Nat → DirSizeResult
  | 0, _, _ => .outOfFuel
  | _ + 1, [], total => .ok total
  | fuel + 1, p :: rest, total =>
    match readDirNode p with
    | none => .ioError
    | some entries =>
      let acc := dirEntriesLoop entries (total, rest)
      get_dir_size_loop fuel acc.2 acc.1

mutual
/-- Number of nodes in a tree (used only as loop fuel: the worklist loop runs
at most one iteration per node, since only distinct subtrees are pushed). -/
def nodeCount : FsNode → Nat
  | .file _ => 1
  | .symlink t => 1 + nodeCount t
  | .dir es => 1 + entsCount es
/-- Number of nodes below a directory listing. -/
def entsCount : FsEntries → Nat
  | .nil => 0
  | .cons _ n rest => nodeCount n + entsCount rest
end

/-- `get_dir_size` from src/lib.rs: worklist initialised with exactly the
caller-supplied root and a zero running total.  The fuel `nodeCount root + 1`
is an upper bound on the iterations of the source's unfuelled loop. -/
def get_dir_size (root : FsNode) : DirSizeResult :=
  get_dir_size_loop (nodeCount root + 1) [root] 0

mutual
/-- Total the walker is specified to compute: byte lengths of regular files,
recursing into subdirectories, with every symlink entry contributing zero. -/
def skipSize : FsNode → Nat
  | .file n => n
  | .symlink _ => 0
  | .dir es => entsSkip es
/-- `skipSize` summed over a listing. -/
def entsSkip : FsEntries → Nat
  | .nil => 0
  | .cons _ n rest => skipSize n + entsSkip rest
end

mutual
/-- Sum of the byte lengths of all regular files in a subtree (following
symlinks); coincides with `skipSize` on symlink-free trees. -/
def sumFileBytes : FsNode → Nat
  | .file n => n
  | .symlink t => sumFileBytes t
  | .dir es => entsSumFileBytes es
/-- `sumFileBytes` summed over a listing. -/
def entsSumFileBytes : FsEntries → Nat
  | .nil => 0
  | .cons _ n rest => sumFileBytes n + entsSumFileBytes rest
end

mutual
/-- No symbolic link occurs anywhere in the subtree. -/
def noSymlinks : FsNode → Bool
  | .file _ => true
  | .symlink _ => false
  | .dir es => entsNoSymlinks es
/-- `noSymlinks` over a listing. -/
def entsNoSymlinks : FsEntries → Bool
  | .nil => true
  | .cons _ n rest => noSymlinks n && entsNoSymlinks rest
end

/-- Remove the symbolic-link entries from a directory listing. -/
def dropSymlinkEntries : FsEntries → FsEntries
  | .nil => .nil
  | .cons n node rest =>
    match node with
    | .symlink _ => dropSymlinkEntries rest
    | _ => .cons n node (dropSymlinkEntries rest)

/-- Sum of the byte lengths of the regular-file entries of one listing (the
amount the inner loop adds to the running total). -/
def entsFileSum : FsEntries → Nat
  | .nil => 0
  | .cons _ n rest =>
    (match n with
     | .file k => k
     | _ => 0) + entsFileSum rest

/-- The directory entries of one listing, in order (the nodes the inner loop
pushes onto the worklist). -/
def entsDirs : FsEntries → List FsNode
  | .nil => []
  | .cons _ n rest =>
    match n with
    | .dir d => FsNode.dir d :: entsDirs rest
    | _ => entsDirs rest

/-! ## `hash_sync` and `hash` (src/lib.rs lines 806–829 and 840–864)

Both hashers resolve the path through `get_filepath`, open the file and feed it
to SHA-256 in 8 KiB chunks.  The platform I/O is a record of two functions:
the canonicalizer (shared with `get_filepath`) and `openRead`, which yields the
byte content a successful open would stream (a failing open yields the I/O
error message).  The SHA-256 state is modelled as the exact byte stream fed to
it (`update` appends): the digest is a pure function of that stream, so two
runs that feed identical streams render identical hex digests. -/

/-- The platform I/O used by the hashing functions. -/
structure HashFs where
  canonicalize : List Nat → Except String (List Nat)
  openRead : List Nat → Except String (List Nat)

/-- Error cases of the embedded hashers; each keeps the context message the
source attaches (`hash_sync` and `hash` use different wording). -/
inductive HashError where
  | filepathFailed (context : String) (cause : GfpError)
  | emptyPath (context : String)
  | openFailed (context : String) (cause : String)
  deriving DecidableEq

/-- The chunked read loop of `hash_sync`: read up to 8192 bytes, stop on a
zero-length read, otherwise feed the chunk to the hasher and continue.  Fuelled
(one unit per iteration); `content length + 1` units always suffice. -/
def hashReadLoopSync : Nat → List Nat → List Nat → List Nat
  | 0, fed, _ => fed
  | fuel + 1, fed, rem =>
    if rem.length = 0 then fed
    else hashReadLoopSync fuel (fed ++ rem.take 8192) (rem.drop 8192)

/-- The chunked read loop of the suspending `hash`, identical except that each
read awaits. -/
def hashReadLoopAsync : Nat → List Nat → List Nat → List Nat
  | 0, fed, _ => fed
  | fuel + 1, fed, rem =>
    if rem.length = 0 then fed
    else hashReadLoopAsync fuel (fed ++ rem.take 8192) (rem.drop 8192)

/-- `hash_sync` from src/lib.rs: blocking SHA-256 of a file, returning the byte
stream fed to the hasher (of which the rendered hex digest is a pure
function). -/
def hash_sync (fs : HashFs) (filepath : List Nat) : Except HashError (List Nat) :=
  match get_filepath fs.canonicalize filepath with
  | .error e => .error (.filepathFailed "Failed to get filepath for hashing" e)
  | .ok path =>
    if path.length = 0 then .error (.emptyPath "File path cannot be empty for hashing")
    else
      match fs.openRead path with
      | .error e => .error (.openFailed "Unable to open file" e)
      | .ok content => .ok (hashReadLoopSync (content.length + 1) [] content)

/-- `hash` from src/lib.rs: the suspending SHA-256 of a file; the logic is the
blocking one with awaits at the I/O boundaries and different context
messages. -/
def hash (fs : HashFs) (filepath : List Nat) : Except HashError (List Nat) :=
  match get_filepath fs.canonicalize filepath with
  | .error e => .error (.filepathFailed "Failed to get filepath for async hashing" e)
  | .ok path =>
    if path.length = 0 then .error (.emptyPath "File path cannot be empty for async hashing")
    else
      match fs.openRead path with
      | .error e => .error (.openFailed "Unable to open file" e)
      | .ok content => .ok (hashReadLoopAsync (content.length + 1) [] content)

/-! ## Facts about UTF-8 validity

The two key structural facts: validity is closed under concatenation, and a
valid stream splits at any ASCII byte (every byte of a multi-byte character is
at least `0x80`, so an ASCII byte always stands alone). -/

/-- An ASCII byte is always a lead byte of a one-byte character. -/
theorem leadSpec_ascii (b : Nat) (h : b ≤ 0x7F) : leadSpec b = some (0, 0, 0) := by
  unfold leadSpec
  rw [if_pos h]

/-- A lead byte never asks for more than three continuation bytes. -/
theorem leadSpec_k_le_3 (b k lo hi : Nat) (h : leadSpec b = some (k, lo, hi)) : k ≤ 3 := by
  unfold leadSpec at h
  repeat' split at h
  all_goals
    first
    | (simp only [Option.some.injEq, Prod.mk.injEq] at h; omega)
    | simp at h

/-- The first continuation byte of a multi-byte character is at least
`0x80`. -/
theorem leadSpec_cont_lo (b k lo hi : Nat) (h : leadSpec b = some (k, lo, hi)) (hk : k ≠ 0) :
    0x80 ≤ lo := by
  unfold leadSpec at h
  repeat' split at h
  all_goals
    first
    | (simp only [Option.some.injEq, Prod.mk.injEq] at h; omega)
    | simp at h

/-- A multi-byte lead is itself above `0x7F`. -/
theorem leadSpec_of_ascii (b k lo hi : Nat) (h : leadSpec b = some (k, lo, hi)) (hb : b ≤ 0x7F) :
    k = 0 := by
  rw [leadSpec_ascii b hb] at h
  injection h with h'
  injection h' with ha hrest
  omega

/-- An ASCII byte is not in a continuation-byte range. -/
theorem not_inRange_ascii (lo hi c : Nat) (hlo : 0x80 ≤ lo) (hc : c ≤ 0x7F) :
    inRange lo hi c = false := by
  simp only [inRange, Bool.and_eq_false_iff, decide_eq_false_iff_not]
  omega

/-- An ASCII byte is not a continuation byte. -/
theorem not_contB_ascii (c : Nat) (hc : c ≤ 0x7F) : contB c = false := by
  simp only [contB, Bool.and_eq_false_iff, decide_eq_false_iff_not]
  omega

/-- Validity at an impossible lead byte. -/
theorem valid_cons_none (b : Nat) (l : List Nat) (h : leadSpec b = none) :
    validUtf8 (b :: l) = false := by
  simp only [validUtf8, h]

/-- Validity step for a one-byte character. -/
theorem valid_cons_k0 (b : Nat) (l : List Nat) (lo hi : Nat)
    (h : leadSpec b = some (0, lo, hi)) : validUtf8 (b :: l) = validUtf8 l := by
  simp only [validUtf8, h]

/-- Validity step for a two-byte character. -/
theorem valid_cons_k1 (b c1 : Nat) (l1 : List Nat) (lo hi : Nat)
    (h : leadSpec b = some (1, lo, hi)) :
    validUtf8 (b :: c1 :: l1) = (inRange lo hi c1 && validUtf8 l1) := by
  simp only [validUtf8, h]

/-- A two-byte lead with nothing after it is invalid. -/
theorem valid_cons_k1_nil (b lo hi : Nat) (h : leadSpec b = some (1, lo, hi)) :
    validUtf8 [b] = false := by
  simp only [validUtf8, h]

/-- Validity step for a three-byte character. -/
theorem valid_cons_k2 (b c1 c2 : Nat) (l2 : List Nat) (lo hi : Nat)
    (h : leadSpec b = some (2, lo, hi)) :
    validUtf8 (b :: c1 :: c2 :: l2) = (inRange lo hi c1 && contB c2 && validUtf8 l2) := by
  simp only [validUtf8, h]

/-- A three-byte lead with nothing after it is invalid. -/
theorem valid_cons_k2_nil (b lo hi : Nat) (h : leadSpec b = some (2, lo, hi)) :
    validUtf8 [b] = false := by
  simp only [validUtf8, h]

/-- A three-byte lead with a single byte after it is invalid. -/
theorem valid_cons_k2_one (b c1 lo hi : Nat) (h : leadSpec b = some (2, lo, hi)) :
    validUtf8 [b, c1] = false := by
  simp only [validUtf8, h]

/-- Validity step for a four-byte character. -/
theorem valid_cons_k3 (b c1 c2 c3 : Nat) (l3 : List Nat) (lo hi : Nat)
    (h : leadSpec b = some (3, lo, hi)) :
    validUtf8 (b :: c1 :: c2 :: c3 :: l3) =
      (inRange lo hi c1 && contB c2 && contB c3 && validUtf8 l3) := by
  simp only [validUtf8, h]

/-- A four-byte lead with nothing after it is invalid. -/
theorem valid_cons_k3_nil (b lo hi : Nat) (h : leadSpec b = some (3, lo, hi)) :
    validUtf8 [b] = false := by
  simp only [validUtf8, h]

/-- A four-byte lead with a single byte after it is invalid. -/
theorem valid_cons_k3_one (b c1 lo hi : Nat) (h : leadSpec b = some (3, lo, hi)) :
    validUtf8 [b, c1] = false := by
  simp only [validUtf8, h]

/-- A four-byte lead with only two bytes after it is invalid. -/
theorem valid_cons_k3_two (b c1 c2 lo hi : Nat) (h : leadSpec b = some (3, lo, hi)) :
    validUtf8 [b, c1, c2] = false := by
  simp only [validUtf8, h]

/-- After a three-byte lead, the next byte must be in the continuation
range. -/
theorem valid_k2_first (b c1 : Nat) (r : List Nat) (lo hi : Nat)
    (h : leadSpec b = some (2, lo, hi)) (hv : validUtf8 (b :: c1 :: r) = true) :
    inRange lo hi c1 = true := by
  cases r with
  | nil => rw [valid_cons_k2_one b c1 lo hi h] at hv; cases hv
  | cons c2 r2 =>
    rw [valid_cons_k2 b c1 c2 r2 lo hi h] at hv
    exact (Bool.and_eq_true_iff.mp (Bool.and_eq_true_iff.mp hv).1).1

/-- After a four-byte lead, the next byte must be in the continuation
range. -/
theorem valid_k3_first (b c1 : Nat) (r : List Nat) (lo hi : Nat)
    (h : leadSpec b = some (3, lo, hi)) (hv : validUtf8 (b :: c1 :: r) = true) :
    inRange lo hi c1 = true := by
  cases r with
  | nil => rw [valid_cons_k3_one b c1 lo hi h] at hv; cases hv
  | cons c2 r2 =>
    cases r2 with
    | nil => rw [valid_cons_k3_two b c1 c2 lo hi h] at hv; cases hv
    | cons c3 r3 =>
      rw [valid_cons_k3 b c1 c2 c3 r3 lo hi h] at hv
      exact (Bool.and_eq_true_iff.mp
        (Bool.and_eq_true_iff.mp (Bool.and_eq_true_iff.mp hv).1).1).1

/-- After a four-byte lead and one continuation byte, the next byte must be a
continuation byte. -/
theorem valid_k3_second (b c1 c2 : Nat) (r : List Nat) (lo hi : Nat)
    (h : leadSpec b = some (3, lo, hi)) (hv : validUtf8 (b :: c1 :: c2 :: r) = true) :
    contB c2 = true := by
  cases r with
  | nil => rw [valid_cons_k3_two b c1 c2 lo hi h] at hv; cases hv
  | cons c3 r3 =>
    rw [valid_cons_k3 b c1 c2 c3 r3 lo hi h] at hv
    exact (Bool.and_eq_true_iff.mp
      (Bool.and_eq_true_iff.mp (Bool.and_eq_true_iff.mp hv).1).1).2

/-- Concatenating valid UTF-8 byte sequences yields a valid sequence
(induction on a length bound). -/
theorem utf8_append_aux :
    ∀ (n : Nat) (xs ys : List Nat), xs.length ≤ n → validUtf8 xs = true →
      validUtf8 ys = true → validUtf8 (xs ++ ys) = true := by
  intro n
  induction n with
  | zero =>
    intro xs ys hlen hx hy
    obtain rfl : xs = [] := List.length_eq_zero.mp (Nat.le_zero.mp hlen)
    simpa using hy
  | succ n ih =>
    intro xs ys hlen hx hy
    cases xs with
    | nil => simpa using hy
    | cons b l =>
      rw [List.cons_append]
      cases hspec : leadSpec b with
      | none => rw [valid_cons_none b l hspec] at hx; cases hx
      | some v =>
        obtain ⟨k, lo, hi⟩ := v
        rcases k with _ | _ | _ | _ | m
        · rw [valid_cons_k0 b l lo hi hspec] at hx
          rw [valid_cons_k0 b (l ++ ys) lo hi hspec]
          exact ih l ys (by simp at hlen; omega) hx hy
        · cases l with
          | nil => rw [valid_cons_k1_nil b lo hi hspec] at hx; cases hx
          | cons c1 l1 =>
            rw [valid_cons_k1 b c1 l1 lo hi hspec] at hx
            rw [List.cons_append, valid_cons_k1 b c1 (l1 ++ ys) lo hi hspec]
            have hx' := Bool.and_eq_true_iff.mp hx
            rw [hx'.1, ih l1 ys (by simp at hlen; omega) hx'.2 hy]
            rfl
        · cases l with
          | nil => rw [valid_cons_k2_nil b lo hi hspec] at hx; cases hx
          | cons c1 l1 =>
            cases l1 with
            | nil => rw [valid_cons_k2_one b c1 lo hi hspec] at hx; cases hx
            | cons c2 l2 =>
              rw [valid_cons_k2 b c1 c2 l2 lo hi hspec] at hx
              rw [List.cons_append, List.cons_append,
                valid_cons_k2 b c1 c2 (l2 ++ ys) lo hi hspec]
              have hx' := Bool.and_eq_true_iff.mp hx
              have hx'' := Bool.and_eq_true_iff.mp hx'.1
              rw [hx''.1, hx''.2, ih l2 ys (by simp at hlen; omega) hx'.2 hy]
              rfl
        · cases l with
          | nil => rw [valid_cons_k3_nil b lo hi hspec] at hx; cases hx
          | cons c1 l1 =>
            cases l1 with
            | nil => rw [valid_cons_k3_one b c1 lo hi hspec] at hx; cases hx
            | cons c2 l2 =>
              cases l2 with
              | nil => rw [valid_cons_k3_two b c1 c2 lo hi hspec] at hx; cases hx
              | cons c3 l3 =>
                rw [valid_cons_k3 b c1 c2 c3 l3 lo hi hspec] at hx
                rw [List.cons_append, List.cons_append, List.cons_append,
                  valid_cons_k3 b c1 c2 c3 (l3 ++ ys) lo hi hspec]
                have h1 := Bool.and_eq_true_iff.mp hx
                have h2 := Bool.and_eq_true_iff.mp h1.1
                have h3 := Bool.and_eq_true_iff.mp h2.1
                rw [h3.1, h3.2, h2.2, ih l3 ys (by simp at hlen; omega) h1.2 hy]
                rfl
        · exact absurd (leadSpec_k_le_3 b (m + 4) lo hi hspec) (by omega)

/-- Concatenating valid UTF-8 byte sequences yields a valid sequence. -/
theorem utf8_append (xs ys : List Nat) (hx : validUtf8 xs = true)
    (hy : validUtf8 ys = true) : validUtf8 (xs ++ ys) = true :=
  utf8_append_aux xs.length xs ys (Nat.le_refl _) hx hy

/-- A valid UTF-8 sequence splits at any ASCII byte: both sides of the split
are valid (induction on a length bound). -/
theorem utf8_split_aux :
    ∀ (n : Nat) (xs : List Nat) (sep : Nat) (ys : List Nat), xs.length ≤ n → sep ≤ 0x7F →
      validUtf8 (xs ++ sep :: ys) = true → validUtf8 xs = true ∧ validUtf8 ys = true := by
  intro n
  induction n with
  | zero =>
    intro xs sep ys hlen hsep hv
    obtain rfl : xs = [] := List.length_eq_zero.mp (Nat.le_zero.mp hlen)
    refine ⟨rfl, ?_⟩
    rw [List.nil_append, valid_cons_k0 sep ys 0 0 (leadSpec_ascii sep hsep)] at hv
    exact hv
  | succ n ih =>
    intro xs sep ys hlen hsep hv
    cases xs with
    | nil =>
      refine ⟨rfl, ?_⟩
      rw [List.nil_append, valid_cons_k0 sep ys 0 0 (leadSpec_ascii sep hsep)] at hv
      exact hv
    | cons b l =>
      rw [List.cons_append] at hv
      cases hspec : leadSpec b with
      | none => rw [valid_cons_none b (l ++ sep :: ys) hspec] at hv; cases hv
      | some v =>
        obtain ⟨k, lo, hi⟩ := v
        have hlo : k ≠ 0 → 0x80 ≤ lo := leadSpec_cont_lo b k lo hi hspec
        rcases k with _ | _ | _ | _ | m
        · rw [valid_cons_k0 b (l ++ sep :: ys) lo hi hspec] at hv
          obtain ⟨hl, hys⟩ := ih l sep ys (by simp at hlen; omega) hsep hv
          exact ⟨by rw [valid_cons_k0 b l lo hi hspec]; exact hl, hys⟩
        · cases l with
          | nil =>
            rw [List.nil_append, valid_cons_k1 b sep ys lo hi hspec] at hv
            have := (Bool.and_eq_true_iff.mp hv).1
            rw [not_inRange_ascii lo hi sep (hlo (by omega)) hsep] at this
            cases this
          | cons c1 l1 =>
            rw [List.cons_append, valid_cons_k1 b c1 (l1 ++ sep :: ys) lo hi hspec] at hv
            have hv' := Bool.and_eq_true_iff.mp hv
            obtain ⟨hl1, hys⟩ := ih l1 sep ys (by simp at hlen; omega) hsep hv'.2
            refine ⟨?_, hys⟩
            rw [valid_cons_k1 b c1 l1 lo hi hspec, hv'.1, hl1]
            rfl
        · cases l with
          | nil =>
            rw [List.nil_append] at hv
            have := valid_k2_first b sep ys lo hi hspec hv
            rw [not_inRange_ascii lo hi sep (hlo (by omega)) hsep] at this
            cases this
          | cons c1 l1 =>
            cases l1 with
            | nil =>
              rw [List.cons_append, List.nil_append] at hv
              rw [valid_cons_k2 b c1 sep ys lo hi hspec] at hv
              have := (Bool.and_eq_true_iff.mp (Bool.and_eq_true_iff.mp hv).1).2
              rw [not_contB_ascii sep hsep] at this
              cases this
            | cons c2 l2 =>
              rw [List.cons_append, List.cons_append,
                valid_cons_k2 b c1 c2 (l2 ++ sep :: ys) lo hi hspec] at hv
              have hv' := Bool.and_eq_true_iff.mp hv
              have hv'' := Bool.and_eq_true_iff.mp hv'.1
              obtain ⟨hl2, hys⟩ := ih l2 sep ys (by simp at hlen; omega) hsep hv'.2
              refine ⟨?_, hys⟩
              rw [valid_cons_k2 b c1 c2 l2 lo hi hspec, hv''.1, hv''.2, hl2]
              rfl
        · cases l with
          | nil =>
            rw [List.nil_append] at hv
            have := valid_k3_first b sep ys lo hi hspec hv
            rw [not_inRange_ascii lo hi sep (hlo (by omega)) hsep] at this
            cases this
          | cons c1 l1 =>
            cases l1 with
            | nil =>
              rw [List.cons_append, List.nil_append] at hv
              have := valid_k3_second b c1 sep ys lo hi hspec hv
              rw [not_contB_ascii sep hsep] at this
              cases this
            | cons c2 l2 =>
              cases l2 with
              | nil =>
                rw [List.cons_append, List.cons_append, List.nil_append] at hv
                rw [valid_cons_k3 b c1 c2 sep ys lo hi hspec] at hv
                have := (Bool.and_eq_true_iff.mp (Bool.and_eq_true_iff.mp hv).1).2
                rw [not_contB_ascii sep hsep] at this
                cases this
              | cons c3 l3 =>
                rw [List.cons_append, List.cons_append, List.cons_append,
                  valid_cons_k3 b c1 c2 c3 (l3 ++ sep :: ys) lo hi hspec] at hv
                have h1 := Bool.and_eq_true_iff.mp hv
                have h2 := Bool.and_eq_true_iff.mp h1.1
                have h3 := Bool.and_eq_true_iff.mp h2.1
                obtain ⟨hl3, hys⟩ := ih l3 sep ys (by simp at hlen; omega) hsep h1.2
                refine ⟨?_, hys⟩
                rw [valid_cons_k3 b c1 c2 c3 l3 lo hi hspec, h3.1, h3.2, h2.2, hl3]
                rfl
        · exact absurd (leadSpec_k_le_3 b (m + 4) lo hi hspec) (by omega)

/-- A valid UTF-8 sequence splits at any ASCII byte: both sides of the split
are valid. -/
theorem utf8_split (xs : List Nat) (sep : Nat) (ys : List Nat) (hsep : sep ≤ 0x7F)
    (hv : validUtf8 (xs ++ sep :: ys) = true) :
    validUtf8 xs = true ∧ validUtf8 ys = true :=
  utf8_split_aux xs.length xs sep ys (Nat.le_refl _) hsep hv

/-! ## Facts about `splitSep` -/

/-- `splitSep` always yields at least one chunk. -/
theorem splitSep_ne_nil : ∀ s : List Nat, splitSep s ≠ []
  | [] => by simp [splitSep]
  | b :: rest => by
    by_cases hb : b = 47
    · simp [splitSep, hb]
    · cases hrec : splitSep rest with
      | nil => simp [splitSep, hb, hrec]
      | cons p ps => simp [splitSep, hb, hrec]

/-- A separator-free string is a single chunk. -/
theorem splitSep_no_sep : ∀ s : List Nat, 47 ∉ s → splitSep s = [s]
  | [], _ => rfl
  | b :: rest, h => by
    have hb : b ≠ 47 := fun hh => h (hh ▸ List.mem_cons_self b rest)
    have hrec := splitSep_no_sep rest (fun hm => h (List.mem_cons_of_mem b hm))
    simp [splitSep, hb, hrec]

/-- Splitting at the first separator. -/
theorem splitSep_append_sep :
    ∀ xs ys : List Nat, 47 ∉ xs → splitSep (xs ++ 47 :: ys) = xs :: splitSep ys
  | [], ys, _ => by simp [splitSep]
  | b :: xs', ys, h => by
    have hb : b ≠ 47 := fun hh => h (hh ▸ List.mem_cons_self b xs')
    have hrec := splitSep_append_sep xs' ys (fun hm => h (List.mem_cons_of_mem b hm))
    rw [List.cons_append]
    simp [splitSep, hb, hrec]

/-- Splitting at the last separator. -/
theorem splitSep_append_last :
    ∀ B chunk : List Nat, 47 ∉ chunk → splitSep (B ++ 47 :: chunk) = splitSep B ++ [chunk]
  | [], chunk, h => by simp [splitSep, splitSep_no_sep chunk h]
  | b :: B', chunk, h => by
    have hrec := splitSep_append_last B' chunk h
    by_cases hb : b = 47
    · subst hb
      rw [List.cons_append]
      simp [splitSep, hrec]
    · rw [List.cons_append]
      obtain ⟨p, ps, hps⟩ : ∃ p ps, splitSep B' = p :: ps := by
        cases hsp : splitSep B' with
        | nil => exact absurd hsp (splitSep_ne_nil B')
        | cons p ps => exact ⟨p, ps, rfl⟩
      rw [hps] at hrec
      simp [splitSep, hb, hrec, hps]

/-- Decomposition of a string at its first separator. -/
theorem first_sep_decomp : ∀ s : List Nat, 47 ∈ s → ∃ t u, s = t ++ 47 :: u ∧ 47 ∉ t
  | [], h => absurd h (List.not_mem_nil 47)
  | b :: rest, h => by
    by_cases hb : b = 47
    · exact ⟨[], rest, by rw [hb, List.nil_append], List.not_mem_nil 47⟩
    · have hrest : 47 ∈ rest := by
        rcases List.mem_cons.mp h with h1 | h1
        · exact absurd h1.symm hb
        · exact h1
      obtain ⟨t, u, hdec, ht⟩ := first_sep_decomp rest hrest
      refine ⟨b :: t, u, by rw [hdec, List.cons_append], ?_⟩
      intro hmem
      rcases List.mem_cons.mp hmem with h1 | h1
      · exact hb h1.symm
      · exact ht h1

/-- Every chunk of a valid UTF-8 string is valid (induction on a length
bound). -/
theorem valid_splitSep_pieces_aux :
    ∀ (n : Nat) (s : List Nat), s.length ≤ n → validUtf8 s = true →
      ∀ p ∈ splitSep s, validUtf8 p = true := by
  intro n
  induction n with
  | zero =>
    intro s hlen hv p hp
    obtain rfl : s = [] := List.length_eq_zero.mp (Nat.le_zero.mp hlen)
    simp [splitSep] at hp
    rw [hp]
    rfl
  | succ n ih =>
    intro s hlen hv p hp
    by_cases h47 : 47 ∈ s
    · obtain ⟨t, u, rfl, ht⟩ := first_sep_decomp s h47
      rw [splitSep_append_sep t u ht] at hp
      obtain ⟨hvt, hvu⟩ := utf8_split t 47 u (by omega) hv
      rcases List.mem_cons.mp hp with h1 | h1
      · rw [h1]; exact hvt
      · exact ih u (by simp at hlen; omega) hvu p h1
    · rw [splitSep_no_sep s h47] at hp
      rw [List.mem_singleton.mp hp]
      exact hv

/-- Every chunk of a valid UTF-8 string is valid. -/
theorem valid_splitSep_pieces (s : List Nat) (hv : validUtf8 s = true) :
    ∀ p ∈ splitSep s, validUtf8 p = true :=
  valid_splitSep_pieces_aux s.length s (Nat.le_refl _) hv

/-! ## Facts about `parseSingle` and `components` -/

/-- A chunk that parses to a normal component is that component's segment. -/
theorem parseSingle_normal (bs nm : List Nat) (h : parseSingle bs = some (.normal nm)) :
    nm = bs := by
  unfold parseSingle at h
  split at h <;> simp_all

/-- The chunks that parse to no component are exactly the empty chunk and the
dot chunk. -/
theorem parseSingle_none_cases (p : List Nat) (h : parseSingle p = none) :
    p = [] ∨ p = [46] := by
  unfold parseSingle at h
  split at h <;> simp_all

/-- Every normal segment of the components of a valid UTF-8 path is valid. -/
theorem components_names_valid (s : List Nat) (hv : validUtf8 s = true) :
    ∀ nm, PComponent.normal nm ∈ components s → validUtf8 nm = true := by
  intro nm hmem
  have hfil : PComponent.normal nm ∈ (splitSep s).filterMap parseSingle := by
    unfold components at hmem
    split at hmem
    · rcases List.mem_cons.mp hmem with h1 | h1
      · cases h1
      · exact h1
    · split at hmem
      · rcases List.mem_cons.mp hmem with h1 | h1
        · cases h1
        · exact h1
      · exact hmem
  obtain ⟨q, hq, hparse⟩ := List.mem_filterMap.mp hfil
  rw [parseSingle_normal q nm hparse]
  exact valid_splitSep_pieces s hv q hq

/-! ## Facts about `backSplit`, `trimRight` and `backParseLoop` -/

/-- Members of a `takeWhile` with the not-separator predicate are not the
separator. -/
theorem takeWhile_ne47_mem :
    ∀ l : List Nat, ∀ x ∈ l.takeWhile (fun b => decide (b ≠ 47)), x ≠ 47 := by
  intro l x hx
  have := List.mem_takeWhile_imp hx
  simpa using this

/-- `dropWhile` with the not-separator predicate stops at a separator. -/
theorem dropWhile_ne47_head :
    ∀ (l : List Nat) (x : Nat) (xs : List Nat),
      l.dropWhile (fun b => decide (b ≠ 47)) = x :: xs → x = 47
  | [], x, xs, h => by simp [List.dropWhile] at h
  | b :: rest, x, xs, h => by
    rw [List.dropWhile_cons] at h
    by_cases hb : b = 47
    · rw [if_neg (by simp [hb])] at h
      injection h with h1 h2
      omega
    · rw [if_pos (by simp [hb])] at h
      exact dropWhile_ne47_head rest x xs h

/-- The leading-byte count never exceeds the length of the path. -/
theorem lbb_le_length (s : List Nat) : lenBeforeBody s ≤ s.length := by
  unfold lenBeforeBody
  by_cases h1 : s.head? = some 47
  · rw [if_pos h1]
    cases s with
    | nil => cases h1
    | cons b rest => simp
  · rw [if_neg h1]
    by_cases h2 : includeCurDir s = true
    · rw [if_pos h2]
      unfold includeCurDir at h2
      simp only [Bool.and_eq_true, Bool.or_eq_true, decide_eq_true_eq] at h2
      rcases h2.2 with h3 | h3
      · rw [h3]; simp
      · cases s with
        | nil => simp [List.take] at h3
        | cons b rest => simp
    · rw [if_neg h2]
      exact Nat.zero_le _

/-- Structure of one backward parsing step: the extracted chunk is
separator-free, and either the body had no separator (the chunk is the whole
body and the path is truncated to its leading bytes) or the body splits at its
last separator. -/
theorem backSplit_shape (s : List Nat) :
    (47 ∉ (backSplit s).2) ∧
    ((47 ∉ s.drop (lenBeforeBody s) ∧
      (backSplit s).1 = s.take (lenBeforeBody s) ∧ (backSplit s).2 = s.drop (lenBeforeBody s))
     ∨ ∃ B, s.drop (lenBeforeBody s) = B ++ 47 :: (backSplit s).2 ∧
         (backSplit s).1 = s.take (lenBeforeBody s) ++ B) := by
  have hlbb := lbb_le_length s
  have hbodylen : (s.drop (lenBeforeBody s)).length = s.length - lenBeforeBody s :=
    List.length_drop _ _
  have hdecomp := List.takeWhile_append_dropWhile (fun b => decide (b ≠ 47))
    (s.drop (lenBeforeBody s)).reverse
  have hchunk2 : (backSplit s).2 =
      ((s.drop (lenBeforeBody s)).reverse.takeWhile (fun b => decide (b ≠ 47))).reverse := rfl
  have hmemchunk : 47 ∉ (backSplit s).2 := by
    rw [hchunk2]
    intro hmem
    exact takeWhile_ne47_mem _ 47 (List.mem_reverse.mp hmem) rfl
  refine ⟨hmemchunk, ?_⟩
  have hfst : (backSplit s).1 = s.take (s.length -
      (if (backSplit s).2.length = (s.drop (lenBeforeBody s)).length
       then (backSplit s).2.length else (backSplit s).2.length + 1)) := by
    rw [hchunk2]
    rfl
  cases hdw : (s.drop (lenBeforeBody s)).reverse.dropWhile (fun b => decide (b ≠ 47)) with
  | nil =>
    left
    rw [hdw, List.append_nil] at hdecomp
    have hbody : s.drop (lenBeforeBody s) = (backSplit s).2 := by
      rw [hchunk2, hdecomp, List.reverse_reverse]
    refine ⟨by rw [hbody]; exact hmemchunk, ?_, hbody.symm⟩
    have hlenchunk : (backSplit s).2.length = (s.drop (lenBeforeBody s)).length := by
      rw [← hbody]
    rw [hfst, if_pos hlenchunk]
    congr 1
    omega
  | cons d dw' =>
    right
    have hd : d = 47 := dropWhile_ne47_head _ d dw' hdw
    subst hd
    rw [hdw] at hdecomp
    have hbody : s.drop (lenBeforeBody s) = dw'.reverse ++ 47 :: (backSplit s).2 := by
      rw [hchunk2]
      calc s.drop (lenBeforeBody s)
        = (s.drop (lenBeforeBody s)).reverse.reverse := (List.reverse_reverse _).symm
      _ = (((s.drop (lenBeforeBody s)).reverse.takeWhile (fun b => decide (b ≠ 47)))
            ++ 47 :: dw').reverse := by rw [hdecomp]
      _ = _ := by
            rw [List.reverse_append, List.reverse_cons, List.append_assoc]
            simp
    refine ⟨dw'.reverse, hbody, ?_⟩
    have hlenne : (backSplit s).2.length ≠ (s.drop (lenBeforeBody s)).length := by
      rw [hbody]
      simp
      omega
    rw [hfst, if_neg hlenne]
    have hrevlen : dw'.reverse.length = dw'.length := List.length_reverse dw'
    have hslen : s.length = lenBeforeBody s + (dw'.length + (1 + (backSplit s).2.length)) := by
      have h5 := hbodylen
      rw [hbody] at h5
      simp at h5
      omega
    have hstake : s = s.take (lenBeforeBody s) ++ (dw'.reverse ++ 47 :: (backSplit s).2) := by
      conv_lhs => rw [← List.take_append_drop (lenBeforeBody s) s]
      rw [hbody]
    have hlt : (s.take (lenBeforeBody s)).length = lenBeforeBody s := by
      rw [List.length_take]
      omega
    have hn : s.length - ((backSplit s).2.length + 1)
        = (s.take (lenBeforeBody s)).length + dw'.reverse.length := by
      rw [hlt]
      omega
    rw [hn]
    have hgen : ∀ m : Nat, s.take m =
        (s.take (lenBeforeBody s) ++ (dw'.reverse ++ 47 :: (backSplit s).2)).take m := by
      intro m
      conv_lhs => rw [hstake]
    calc (s.take ((s.take (lenBeforeBody s)).length + dw'.reverse.length))
        = (s.take (lenBeforeBody s) ++ (dw'.reverse ++ 47 :: (backSplit s).2)).take
            ((s.take (lenBeforeBody s)).length + dw'.reverse.length) := hgen _
      _ = s.take (lenBeforeBody s) ++
            (dw'.reverse ++ 47 :: (backSplit s).2).take dw'.reverse.length := by
          rw [List.take_append_eq_append_take,
            List.take_of_length_le (Nat.le_add_right _ _), Nat.add_sub_cancel_left]
      _ = s.take (lenBeforeBody s) ++ dw'.reverse := by
          rw [List.take_left]

/-- The path taken by one backward step is strictly shorter while the body is
non-empty. -/
theorem backSplit_fst_length_lt (s : List Nat) (h : lenBeforeBody s < s.length) :
    (backSplit s).1.length < s.length := by
  have hlbb := lbb_le_length s
  rcases (backSplit_shape s).2 with ⟨_, h1, _⟩ | ⟨B, hbody, h1⟩
  · rw [h1, List.length_take]
    omega
  · have hlen : (s.drop (lenBeforeBody s)).length = s.length - lenBeforeBody s :=
      List.length_drop _ _
    rw [hbody] at hlen
    simp at hlen
    rw [h1]
    simp [List.length_take]
    omega

/-- The leading bytes of a path are empty, a root slash, or a kept dot. -/
theorem take_lbb_cases (s : List Nat) :
    s.take (lenBeforeBody s) = [] ∨ s.take (lenBeforeBody s) = [47] ∨
      s.take (lenBeforeBody s) = [46] := by
  unfold lenBeforeBody
  by_cases h1 : s.head? = some 47
  · rw [if_pos h1]
    cases s with
    | nil => cases h1
    | cons b rest =>
      right; left
      simp at h1
      rw [h1]
      rfl
  · rw [if_neg h1]
    by_cases h2 : includeCurDir s = true
    · rw [if_pos h2]
      unfold includeCurDir at h2
      simp only [Bool.and_eq_true, Bool.or_eq_true, decide_eq_true_eq] at h2
      right; right
      rcases h2.2 with h3 | h3
      · rw [h3]; rfl
      · cases s with
        | nil => simp at h3
        | cons b rest =>
          have hb : b = 46 := by
            have := congrArg (fun l => l.head?) h3
            simpa using this
          rw [hb]
          rfl
    · rw [if_neg h2]
      left
      rfl

/-- One backward step preserves UTF-8 validity of the path. -/
theorem backSplit_fst_valid (s : List Nat) (hv : validUtf8 s = true) :
    validUtf8 (backSplit s).1 = true := by
  rcases (backSplit_shape s).2 with ⟨_, h1, _⟩ | ⟨B, hbody, h1⟩
  · rw [h1]
    rcases take_lbb_cases s with h2 | h2 | h2 <;> rw [h2] <;> rfl
  · have hs : s = (backSplit s).1 ++ 47 :: (backSplit s).2 := by
      conv_lhs => rw [← List.take_append_drop (lenBeforeBody s) s]
      rw [hbody, h1, List.append_assoc]
    rw [hs] at hv
    exact (utf8_split _ 47 _ (by omega) hv).1

/-- The root-slash case of `lenBeforeBody`. -/
theorem lbb_head47 (s : List Nat) (h : s.head? = some 47) : lenBeforeBody s = 1 := by
  unfold lenBeforeBody
  rw [if_pos h]

/-- The kept-dot case of `lenBeforeBody`. -/
theorem lbb_curDir (s : List Nat) (h : includeCurDir s = true) : lenBeforeBody s = 1 := by
  unfold lenBeforeBody
  have hh : ¬s.head? = some 47 := by
    unfold includeCurDir at h
    simp only [Bool.and_eq_true, decide_eq_true_eq] at h
    exact h.1
  rw [if_neg hh, if_pos h]

/-- The plain case of `lenBeforeBody`. -/
theorem lbb_zero (s : List Nat) (h1 : ¬s.head? = some 47) (h2 : ¬s = [46])
    (h3 : ¬s.take 2 = [46, 47]) : lenBeforeBody s = 0 := by
  unfold lenBeforeBody
  rw [if_neg h1, if_neg ?_]
  unfold includeCurDir
  simp only [Bool.and_eq_true, Bool.or_eq_true, decide_eq_true_eq]
  intro hc
  rcases hc.2 with h | h
  · exact h2 h
  · exact h3 h

/-- Exhaustive description of `lenBeforeBody`. -/
theorem lenBeforeBody_cases (s : List Nat) :
    (lenBeforeBody s = 1 ∧ s.head? = some 47) ∨
    (lenBeforeBody s = 1 ∧ s.head? ≠ some 47 ∧ (s = [46] ∨ s.take 2 = [46, 47])) ∨
    (lenBeforeBody s = 0 ∧ s.head? ≠ some 47 ∧ ¬s = [46] ∧ ¬s.take 2 = [46, 47]) := by
  by_cases h1 : s.head? = some 47
  · exact Or.inl ⟨lbb_head47 s h1, h1⟩
  · by_cases h2 : s = [46]
    · refine Or.inr (Or.inl ⟨?_, h1, Or.inl h2⟩)
      rw [h2]; rfl
    · by_cases h3 : s.take 2 = [46, 47]
      · refine Or.inr (Or.inl ⟨?_, h1, Or.inr h3⟩)
        exact lbb_curDir s (by
          unfold includeCurDir
          simp only [Bool.and_eq_true, Bool.or_eq_true, decide_eq_true_eq]
          exact ⟨h1, Or.inr h3⟩)
      · exact Or.inr (Or.inr ⟨lbb_zero s h1 h2 h3, h1, h2, h3⟩)

/-- One backward step preserves the leading-byte count. -/
theorem backSplit_fst_lbb (s : List Nat) (h : lenBeforeBody s < s.length) :
    lenBeforeBody (backSplit s).1 = lenBeforeBody s := by
  rcases lenBeforeBody_cases s with ⟨he, hr⟩ | ⟨he, hnr, hc⟩ | ⟨he, hnr, hne, hnt⟩
  · -- root: s = 47 :: t
    obtain ⟨t, rfl⟩ : ∃ t, s = 47 :: t := by
      cases s with
      | nil => cases hr
      | cons b rest => exact ⟨rest, by simp at hr; rw [hr]⟩
    rcases (backSplit_shape (47 :: t)).2 with ⟨_, h1, _⟩ | ⟨B, hbody, h1⟩
    · rw [h1, he]
      rfl
    · rw [h1, he]
      rfl
  · -- kept dot: s = [46] (impossible here) or s = 46 :: 47 :: t
    rcases hc with h46 | htake
    · exfalso
      rw [h46] at h
      exact absurd h (by decide)
    · obtain ⟨t, rfl⟩ : ∃ t, s = 46 :: 47 :: t := by
        cases s with
        | nil => simp at htake
        | cons b rest =>
          cases rest with
          | nil => simp at htake
          | cons b2 rest2 =>
            simp at htake
            exact ⟨rest2, by rw [htake.1, htake.2]⟩
      rcases (backSplit_shape (46 :: 47 :: t)).2 with ⟨_, h1, _⟩ | ⟨B, hbody, h1⟩
      · rw [h1, he]
        rfl
      · rw [he] at hbody h1 ⊢
        cases B with
        | nil =>
          rw [h1]
          rfl
        | cons b1 B' =>
          have hb1 : b1 = 47 := by
            have hdq : (46 :: 47 :: t).drop 1 = 47 :: t := rfl
            rw [hdq] at hbody
            have h8 := congrArg (fun l => l.head?) hbody
            simp at h8
            omega
          rw [h1, hb1]
          rfl
  · -- plain: lbb = 0
    rcases (backSplit_shape s).2 with ⟨_, h1, _⟩ | ⟨B, hbody, h1⟩
    · rw [h1, he, List.take_zero]
      decide
    · rw [he] at hbody h1
      rw [List.take_zero, List.nil_append] at h1
      rw [List.drop_zero] at hbody
      rw [h1, he]
      cases B with
      | nil => decide
      | cons b1 B' =>
        apply lbb_zero
        · intro hh
          apply hnr
          rw [hbody]
          simpa using hh
        · intro hh
          apply hnt
          rw [hbody, hh]
          rfl
        · intro hh
          apply hnt
          rw [hbody]
          cases B' with
          | nil => simp at hh
          | cons b2 B'' =>
            simp at hh
            rw [hh.1, hh.2]
            rfl

/-- `trimRightAux` never lengthens the path. -/
theorem trimRightAux_length_le : ∀ (fuel : Nat) (s : List Nat),
    (trimRightAux fuel s).length ≤ s.length := by
  intro fuel
  induction fuel with
  | zero => intro s; exact Nat.le_refl _
  | succ n ih =>
    intro s
    rw [trimRightAux]
    by_cases h1 : lenBeforeBody s < s.length
    · rw [if_pos h1]
      by_cases h2 : parseSingle (backSplit s).2 = none
      · rw [if_pos h2]
        exact Nat.le_trans (ih _) (Nat.le_of_lt (backSplit_fst_length_lt s h1))
      · rw [if_neg h2]
    · rw [if_neg h1]

/-- `trimRightAux` preserves UTF-8 validity. -/
theorem trimRightAux_valid : ∀ (fuel : Nat) (s : List Nat),
    validUtf8 s = true → validUtf8 (trimRightAux fuel s) = true := by
  intro fuel
  induction fuel with
  | zero => intro s hv; exact hv
  | succ n ih =>
    intro s hv
    rw [trimRightAux]
    by_cases h1 : lenBeforeBody s < s.length
    · rw [if_pos h1]
      by_cases h2 : parseSingle (backSplit s).2 = none
      · rw [if_pos h2]
        exact ih _ (backSplit_fst_valid s hv)
      · rw [if_neg h2]
        exact hv
    · rw [if_neg h1]
      exact hv

/-- `trimRight` preserves UTF-8 validity. -/
theorem trimRight_valid (s : List Nat) (hv : validUtf8 s = true) :
    validUtf8 (trimRight s) = true :=
  trimRightAux_valid s.length s hv

/-- The path `backParseLoop` hands back with a found component is valid when
the input was. -/
theorem bpl_inr_valid : ∀ (fuel : Nat) (s rem : List Nat) (c : PComponent),
    validUtf8 s = true → backParseLoop fuel s = .inr (rem, c) → validUtf8 rem = true := by
  intro fuel
  induction fuel with
  | zero => intro s rem c _ h; cases h
  | succ n ih =>
    intro s rem c hv h
    rw [backParseLoop] at h
    by_cases h1 : lenBeforeBody s < s.length
    · rw [if_pos h1] at h
      cases hp : parseSingle (backSplit s).2 with
      | some c2 =>
        rw [hp] at h
        injection h with h2
        injection h2 with h3 h4
        rw [← h3]
        exact backSplit_fst_valid s hv
      | none =>
        rw [hp] at h
        exact ih _ rem c (backSplit_fst_valid s hv) h
    · rw [if_neg h1] at h
      cases h

/-- With enough fuel, a `backParseLoop` ending in the start-dir state has
exhausted its body. -/
theorem bpl_inl_len : ∀ (fuel : Nat) (s p : List Nat), s.length ≤ fuel →
    backParseLoop fuel s = .inl p → p.length ≤ lenBeforeBody p := by
  intro fuel
  induction fuel with
  | zero =>
    intro s p hlen h
    obtain rfl : s = [] := List.length_eq_zero.mp (Nat.le_zero.mp hlen)
    injection h with h1
    rw [← h1]
    exact Nat.le_refl _
  | succ n ih =>
    intro s p hlen h
    rw [backParseLoop] at h
    by_cases h1 : lenBeforeBody s < s.length
    · rw [if_pos h1] at h
      cases hp : parseSingle (backSplit s).2 with
      | some c2 => rw [hp] at h; cases h
      | none =>
        rw [hp] at h
        exact ih _ p (by
          have := backSplit_fst_length_lt s h1
          omega) h
    · rw [if_neg h1] at h
      injection h with h2
      rw [← h2]
      omega

/-- A path in the start-dir state with a kept dot is exactly the dot. -/
theorem inl_curDir_eq (p : List Nat) (hlen : p.length ≤ lenBeforeBody p)
    (hc : includeCurDir p = true) : p = [46] := by
  unfold includeCurDir at hc
  simp only [Bool.and_eq_true, Bool.or_eq_true, decide_eq_true_eq] at hc
  rcases hc.2 with h | h
  · exact h
  · exfalso
    have h2 : 2 ≤ p.length := by
      have := congrArg List.length h
      rw [List.length_take] at this
      simp at this
      omega
    have := lbb_le_length p
    have hlbb1 : lenBeforeBody p ≤ 1 := by
      unfold lenBeforeBody
      split
      · omega
      · split <;> omega
    omega

/-- `PathBuf::pop` preserves UTF-8 validity. -/
theorem pbPop_valid (s : List Nat) (hv : validUtf8 s = true) :
    validUtf8 (pbPop s) = true := by
  cases hbp : backParseLoop s.length s with
  | inr v =>
    obtain ⟨rem, c⟩ := v
    simp only [pbPop, pbParent, hbp]
    exact trimRight_valid rem (bpl_inr_valid s.length s rem c hv hbp)
  | inl p =>
    simp only [pbPop, pbParent, hbp]
    by_cases h1 : s.head? = some 47
    · rw [if_pos h1]
      exact hv
    · rw [if_neg h1]
      by_cases h2 : includeCurDir p = true
      · rw [if_pos h2]
        have hp46 : p = [46] :=
          inl_curDir_eq p (bpl_inl_len s.length s p (Nat.le_refl _) hbp) h2
        rw [hp46]
        rfl
      · rw [if_neg h2]
        exact hv

/-- `PathBuf::push` preserves UTF-8 validity. -/
theorem pbPush_valid (buf name : List Nat) (hb : validUtf8 buf = true)
    (hn : validUtf8 name = true) : validUtf8 (pbPush buf name) = true := by
  rw [pbPush]
  by_cases h1 : name.head? = some 47
  · rw [if_pos h1]; exact hn
  · rw [if_neg h1]
    by_cases h2 : buf = []
    · rw [if_pos h2]; exact hn
    · rw [if_neg h2]
      by_cases h3 : buf.getLast? = some 47
      · rw [if_pos h3]
        exact utf8_append buf name hb hn
      · rw [if_neg h3]
        rw [List.append_assoc]
        refine utf8_append buf (47 :: name) hb ?_
        rw [valid_cons_k0 47 name 0 0 (leadSpec_ascii 47 (by omega))]
        exact hn

/-- Folding path components over the resolver step preserves UTF-8 validity
of the accumulator, provided the normal segments are valid. -/
theorem foldl_resolveStep_valid :
    ∀ (cs : List PComponent) (acc : List Nat), validUtf8 acc = true →
      (∀ nm, PComponent.normal nm ∈ cs → validUtf8 nm = true) →
      validUtf8 (cs.foldl resolveStep acc) = true
  | [], acc, hacc, _ => hacc
  | c :: cs', acc, hacc, hnames => by
    rw [List.foldl_cons]
    refine foldl_resolveStep_valid cs' (resolveStep acc c) ?_
      (fun nm hm => hnames nm (List.mem_cons_of_mem c hm))
    cases c with
    | parentDir => exact pbPop_valid acc hacc
    | curDir => exact hacc
    | rootDir => rfl
    | normal nm =>
      exact pbPush_valid acc nm hacc (hnames nm (List.mem_cons_self _ _))

/-! ## Splitting a path at its last separator is unique -/

/-- Splitting at the first separator is unique. -/
theorem first_sep_unique :
    ∀ a b a' b' : List Nat, a ++ 47 :: b = a' ++ 47 :: b' → 47 ∉ a → 47 ∉ a' →
      a = a' ∧ b = b'
  | [], b, [], b', h, _, _ => ⟨rfl, by injection h⟩
  | [], b, c' :: a'', b', h, _, ha' => by
    rw [List.nil_append, List.cons_append] at h
    injection h with h1 h2
    exact absurd (h1 ▸ List.mem_cons_self c' a'') ha'
  | c :: a'', b, [], b', h, ha, _ => by
    rw [List.nil_append, List.cons_append] at h
    injection h with h1 h2
    exact absurd (h1.symm ▸ List.mem_cons_self c a'') ha
  | c :: a2, b, c' :: a2', b', h, ha, ha' => by
    rw [List.cons_append, List.cons_append] at h
    injection h with h1 h2
    have hrec := first_sep_unique a2 b a2' b' h2
      (fun hm => ha (List.mem_cons_of_mem c hm))
      (fun hm => ha' (List.mem_cons_of_mem c' hm))
    exact ⟨by rw [h1, hrec.1], hrec.2⟩

/-- Splitting at the last separator is unique. -/
theorem last_sep_unique (t u t' u' : List Nat) (h : t ++ 47 :: u = t' ++ 47 :: u')
    (hu : 47 ∉ u) (hu' : 47 ∉ u') : t = t' ∧ u = u' := by
  have hrev : u.reverse ++ 47 :: t.reverse = u'.reverse ++ 47 :: t'.reverse := by
    have h2 := congrArg List.reverse h
    simpa [List.reverse_append] using h2
  have hmem : 47 ∉ u.reverse := fun hm => hu (List.mem_reverse.mp hm)
  have hmem' : 47 ∉ u'.reverse := fun hm => hu' (List.mem_reverse.mp hm)
  obtain ⟨h1, h2⟩ := first_sep_unique u.reverse t.reverse u'.reverse t'.reverse hrev hmem hmem'
  constructor
  · rw [← List.reverse_reverse t, h2, List.reverse_reverse]
  · rw [← List.reverse_reverse u, h1, List.reverse_reverse]

/-- Appending a separator and more bytes to a non-empty buffer does not change
its leading-byte count. -/
theorem lbb_append_sep (base rest2 : List Nat) (hb : base ≠ []) :
    lenBeforeBody (base ++ 47 :: rest2) = lenBeforeBody base := by
  cases base with
  | nil => exact absurd rfl hb
  | cons b bt =>
    cases bt with
    | nil =>
      by_cases hb47 : b = 47
      · rw [hb47]; rfl
      · by_cases hb46 : b = 46
        · rw [hb46]; rfl
        · have e1 : lenBeforeBody ([b] ++ 47 :: rest2) = 0 := by
            apply lbb_zero
            · intro hh; simp at hh; exact hb47 hh
            · intro hh; simp at hh
            · intro hh; simp at hh; exact hb46 hh
          have e2 : lenBeforeBody [b] = 0 := by
            apply lbb_zero
            · intro hh; simp at hh; exact hb47 hh
            · intro hh; simp at hh; exact hb46 hh
            · intro hh; simp at hh
          rw [e1, e2]
    | cons b2 bt' =>
      show lenBeforeBody (b :: b2 :: (bt' ++ 47 :: rest2)) = lenBeforeBody (b :: b2 :: bt')
      unfold lenBeforeBody includeCurDir
      simp [List.take_succ_cons]

/-- Core of C5: popping a path of the form `buffer pushed with one normal
segment` gives back the (trim-clean, non-empty) buffer. -/
theorem pbPop_push_seg (base seg : List Nat) (hb : base ≠ [])
    (htrim : trimRight base = base) (hseg : parseSingle seg = some (.normal seg))
    (hsep : 47 ∉ seg) : pbPop (pbPush base seg) = base := by
  have hsegne : seg ≠ [] := by
    intro h
    rw [h] at hseg
    cases hseg
  have hseghead : ¬seg.head? = some 47 := by
    cases seg with
    | nil => exact absurd rfl hsegne
    | cons c ct =>
      intro hh
      simp at hh
      exact hsep (hh ▸ List.mem_cons_self c ct)
  by_cases hlast : base.getLast? = some 47
  · -- trim-clean with a trailing slash forces base = "/"
    have hbase47 : base = [47] := by
      by_cases hlb : lenBeforeBody base < base.length
      · exfalso
        -- one trim step strictly shortens, contradicting htrim
        have hchunknil : (backSplit base).2 = [] := by
          have hbodyne : base.drop (lenBeforeBody base) ≠ [] := by
            intro hh
            have := congrArg List.length hh
            rw [List.length_drop] at this
            simp at this
            omega
          have hlastbody : (base.drop (lenBeforeBody base)).getLast? = some 47 := by
            have h9 : (base.take (lenBeforeBody base) ++
                base.drop (lenBeforeBody base)).getLast? = some 47 := by
              rw [List.take_append_drop]
              exact hlast
            rw [List.getLast?_append] at h9
            cases hg : (base.drop (lenBeforeBody base)).getLast? with
            | none => exact absurd (List.getLast?_eq_none_iff.mp hg) hbodyne
            | some x =>
              rw [hg] at h9
              simpa using h9
          have hrevhead : (base.drop (lenBeforeBody base)).reverse.head? = some 47 := by
            rw [List.head?_reverse]
            exact hlastbody
          obtain ⟨rtl, hrtl⟩ : ∃ rtl,
              (base.drop (lenBeforeBody base)).reverse = 47 :: rtl := by
            cases hr : (base.drop (lenBeforeBody base)).reverse with
            | nil => rw [hr] at hrevhead; cases hrevhead
            | cons x xs =>
              rw [hr] at hrevhead
              simp at hrevhead
              exact ⟨xs, by rw [hrevhead]⟩
          show ((base.drop (lenBeforeBody base)).reverse.takeWhile
              (fun b => decide (b ≠ 47))).reverse = []
          rw [hrtl]
          rfl
        have hone : trimRight base = trimRightAux (base.length - 1) (backSplit base).1 := by
          rw [trimRight]
          obtain ⟨m, hm⟩ : ∃ m, base.length = m + 1 := by
            cases base with
            | nil => exact absurd rfl hb
            | cons x xs => exact ⟨xs.length, rfl⟩
          rw [hm]
          rw [trimRightAux, if_pos (by omega : lenBeforeBody base < base.length),
            if_pos (by rw [hchunknil]; rfl)]
          congr 1
        have hlt : (trimRight base).length < base.length := by
          rw [hone]
          have h1 := trimRightAux_length_le (base.length - 1) (backSplit base).1
          have h2 := backSplit_fst_length_lt base hlb
          omega
        rw [htrim] at hlt
        omega
      · -- length ≤ lbb ≤ 1 and last byte 47
        have hlbb := lbb_le_length base
        have hlbb1 : lenBeforeBody base ≤ 1 := by
          unfold lenBeforeBody
          split
          · omega
          · split <;> omega
        have hlen1 : base.length ≤ 1 := by omega
        cases base with
        | nil => exact absurd rfl hb
        | cons x xs =>
          obtain rfl : xs = [] := by
            have h6 : (x :: xs).length = xs.length + 1 := rfl
            have hx0 : xs.length = 0 := by omega
            exact List.length_eq_zero.mp hx0
          have hx : x = 47 := by simpa using hlast
          rw [hx]
    subst hbase47
    have hpush : pbPush [47] seg = 47 :: seg := by
      rw [pbPush, if_neg hseghead, if_neg (by simp),
        if_pos (show [47].getLast? = some 47 from rfl)]
      rfl
    rw [hpush]
    -- compute the pop of 47 :: seg
    have hlbbs : lenBeforeBody (47 :: seg) = 1 := lbb_head47 _ rfl
    have hcond : lenBeforeBody (47 :: seg) < (47 :: seg).length := by
      rw [hlbbs]
      cases seg with
      | nil => exact absurd rfl hsegne
      | cons c ct => simp
    have hsplit : (backSplit (47 :: seg)).1 = [47] ∧ (backSplit (47 :: seg)).2 = seg := by
      rcases (backSplit_shape (47 :: seg)).2 with ⟨hns, h1, h2⟩ | ⟨B, hbody, h1⟩
      · rw [hlbbs] at h1 h2
        exact ⟨h1, h2⟩
      · exfalso
        rw [hlbbs] at hbody
        apply hsep
        rw [show (47 :: seg).drop 1 = seg from rfl] at hbody
        rw [hbody]
        exact List.mem_append_right _ (List.mem_cons_self _ _)
    obtain ⟨m, hm⟩ : ∃ m, (47 :: seg).length = m + 1 := ⟨seg.length, rfl⟩
    have hloop : backParseLoop ((47 :: seg).length) (47 :: seg)
        = .inr ([47], .normal seg) := by
      rw [hm, backParseLoop, if_pos hcond, hsplit.2, hseg, hsplit.1]
    simp only [pbPop, pbParent, hloop]
    rw [show trimRight [47] = [47] from by decide]
  · -- base does not end in a separator: push appends `/` then the segment
    have hpush : pbPush base seg = base ++ 47 :: seg := by
      rw [pbPush, if_neg hseghead, if_neg hb, if_neg hlast, List.append_assoc]
      rfl
    rw [hpush]
    have hlbbs := lbb_append_sep base seg hb
    have hlbb_le := lbb_le_length base
    have hlen : (base ++ 47 :: seg).length = base.length + 1 + seg.length := by
      simp
      omega
    have hcond : lenBeforeBody (base ++ 47 :: seg) < (base ++ 47 :: seg).length := by
      rw [hlbbs, hlen]
      omega
    have hdrop : (base ++ 47 :: seg).drop (lenBeforeBody (base ++ 47 :: seg))
        = base.drop (lenBeforeBody base) ++ 47 :: seg := by
      rw [hlbbs, List.drop_append_eq_append_drop,
        Nat.sub_eq_zero_of_le hlbb_le, List.drop_zero]
    have hsplit : (backSplit (base ++ 47 :: seg)).1 = base ∧
        (backSplit (base ++ 47 :: seg)).2 = seg := by
      rcases (backSplit_shape (base ++ 47 :: seg)) with ⟨hchunk47, hsh⟩
      rcases hsh with ⟨hns, h1, h2⟩ | ⟨B, hbody, h1⟩
      · exfalso
        apply hns
        rw [hdrop]
        exact List.mem_append_right _ (List.mem_cons_self _ _)
      · rw [hdrop] at hbody
        obtain ⟨hB, hchunk⟩ := last_sep_unique (base.drop (lenBeforeBody base)) seg B
          (backSplit (base ++ 47 :: seg)).2 hbody hsep hchunk47
        constructor
        · rw [h1, hlbbs, ← hB]
          have htk : (base ++ 47 :: seg).take (lenBeforeBody base)
              = base.take (lenBeforeBody base) := by
            rw [List.take_append_eq_append_take, Nat.sub_eq_zero_of_le hlbb_le,
              List.take_zero, List.append_nil]
          rw [htk, List.take_append_drop]
        · exact hchunk.symm
    obtain ⟨m, hm⟩ : ∃ m, (base ++ 47 :: seg).length = m + 1 := by
      rw [hlen]
      exact ⟨base.length + seg.length, by omega⟩
    have hloop : backParseLoop ((base ++ 47 :: seg).length) (base ++ 47 :: seg)
        = .inr (base, .normal seg) := by
      rw [hm, backParseLoop, if_pos hcond, hsplit.2, hseg, hsplit.1]
    simp only [pbPop, pbParent, hloop]
    rw [htrim]

/-! ## Simple facts about the embedded operations -/

/-- The two chunked read loops are the same function of fuel, hasher state and
remaining input. -/
theorem hashReadLoop_sync_eq_async :
    ∀ fuel fed rem, hashReadLoopSync fuel fed rem = hashReadLoopAsync fuel fed rem := by
  intro fuel
  induction fuel with
  | zero => intro fed rem; rfl
  | succ n ih =>
    intro fed rem
    rw [hashReadLoopSync, hashReadLoopAsync]
    by_cases h : rem.length = 0
    · simp [h]
    · simp [h, ih]

/-- If every chunk of the body parses to no component, the backward parse
exhausts the body and ends in the start-dir state. -/
theorem bpl_all_none :
    ∀ (fuel : Nat) (s : List Nat),
      (∀ p ∈ splitSep (s.drop (lenBeforeBody s)), parseSingle p = none) →
      ∃ q, backParseLoop fuel s = .inl q := by
  intro fuel
  induction fuel with
  | zero => intro s _; exact ⟨s, rfl⟩
  | succ n ih =>
    intro s hall
    by_cases h1 : lenBeforeBody s < s.length
    · rcases backSplit_shape s with ⟨hchunk47, hsh⟩
      have hmem : (backSplit s).2 ∈ splitSep (s.drop (lenBeforeBody s)) := by
        rcases hsh with ⟨hns, h1', h2'⟩ | ⟨B, hbody, h1'⟩
        · rw [h2', splitSep_no_sep _ hns]
          exact List.mem_singleton.mpr rfl
        · rw [hbody, splitSep_append_last B _ hchunk47]
          exact List.mem_append_right _ (List.mem_singleton.mpr rfl)
      have hpnone := hall _ hmem
      have hnew : ∀ p ∈ splitSep ((backSplit s).1.drop (lenBeforeBody (backSplit s).1)),
          parseSingle p = none := by
        rw [backSplit_fst_lbb s h1]
        rcases hsh with ⟨hns, h1', h2'⟩ | ⟨B, hbody, h1'⟩
        · rw [h1', List.drop_eq_nil_of_le (by
            rw [List.length_take]
            exact Nat.min_le_left _ _)]
          intro p hp
          simp [splitSep] at hp
          rw [hp]
          rfl
        · rw [h1']
          have hlt : (s.take (lenBeforeBody s)).length = lenBeforeBody s := by
            rw [List.length_take]
            have := lbb_le_length s
            omega
          have hdrop : (s.take (lenBeforeBody s) ++ B).drop (lenBeforeBody s) = B := by
            have hdl := List.drop_left (s.take (lenBeforeBody s)) B
            rwa [hlt] at hdl
          rw [hdrop]
          intro p hp
          apply hall
          rw [hbody, splitSep_append_last B _ hchunk47]
          exact List.mem_append_left _ hp
      obtain ⟨q, hq⟩ := ih (backSplit s).1 hnew
      refine ⟨q, ?_⟩
      rw [backParseLoop, if_pos h1, hpnone]
      exact hq
    · exact ⟨s, by rw [backParseLoop, if_neg h1]⟩

/-- C6: when `resolve` processes a `..` component and the accumulator is
already at its root — its components are empty or a bare root, so there is no
segment left to remove — the pop is a silent no-op: the call returns `Ok`
with the accumulator unchanged at its root (no panic, no underflow). -/
theorem resolve_parentdir_at_root (base : List Nat) (hv : validUtf8 base = true)
    (hroot : components base = [] ∨ components base = [PComponent.rootDir]) :
    resolve base [46, 46] = .ok base := by
  have hpop : pbPop base = base := by
    rcases hroot with hrel | habs2
    · -- relative with no components: only the empty path qualifies
      have hbase : base = [] := by
        by_cases hhead : base.head? = some 47
        · exfalso
          unfold components at hrel
          rw [if_pos hhead] at hrel
          cases hrel
        · by_cases hcur : includeCurDir base = true
          · exfalso
            unfold components at hrel
            rw [if_neg hhead, if_pos hcur] at hrel
            cases hrel
          · unfold components at hrel
            rw [if_neg hhead, if_neg hcur] at hrel
            have hallnone : ∀ p ∈ splitSep base, parseSingle p = none :=
              List.filterMap_eq_nil_iff.mp hrel
            cases base with
            | nil => rfl
            | cons b bt =>
              exfalso
              have hbne47 : b ≠ 47 := by
                intro h
                apply hhead
                rw [h]
                rfl
              obtain ⟨p, ps, hps⟩ : ∃ p ps, splitSep bt = p :: ps := by
                cases hsp : splitSep bt with
                | nil => exact absurd hsp (splitSep_ne_nil bt)
                | cons p ps => exact ⟨p, ps, rfl⟩
              have hfirst : (b :: p) ∈ splitSep (b :: bt) := by
                simp [splitSep, hbne47, hps]
              have hpn := hallnone _ hfirst
              rcases parseSingle_none_cases _ hpn with h | h
              · cases h
              · have hbp : b = 46 ∧ p = [] := by simpa using h
                have hb46 : b = 46 := hbp.1
                have hpnil : p = [] := hbp.2
                apply hcur
                cases bt with
                | nil =>
                  rw [hb46]
                  rfl
                | cons b2 bt2 =>
                  have hb2 : b2 = 47 := by
                    by_contra hb2
                    obtain ⟨p2, ps2, hps2⟩ : ∃ p2 ps2, splitSep bt2 = p2 :: ps2 := by
                      cases hsp2 : splitSep bt2 with
                      | nil => exact absurd hsp2 (splitSep_ne_nil bt2)
                      | cons p2 ps2 => exact ⟨p2, ps2, rfl⟩
                    have : splitSep (b2 :: bt2) = (b2 :: p2) :: ps2 := by
                      simp [splitSep, hb2, hps2]
                    rw [this] at hps
                    injection hps with h3 _
                    rw [hpnil] at h3
                    cases h3
                  rw [hb46, hb2]
                  unfold includeCurDir
                  simp
      rw [hbase]
      rfl
    · -- absolute with only the root component
      have hhead : base.head? = some 47 := by
        by_contra hh
        unfold components at habs2
        rw [if_neg hh] at habs2
        by_cases hcur : includeCurDir base = true
        · rw [if_pos hcur] at habs2
          injection habs2 with h1 _
          cases h1
        · rw [if_neg hcur] at habs2
          have hmem : PComponent.rootDir ∈ (splitSep base).filterMap parseSingle := by
            rw [habs2]
            exact List.mem_singleton.mpr rfl
          obtain ⟨q, _, hq⟩ := List.mem_filterMap.mp hmem
          unfold parseSingle at hq
          split at hq <;> simp_all
      have hallnone : ∀ p ∈ splitSep base, parseSingle p = none := by
        unfold components at habs2
        rw [if_pos hhead] at habs2
        injection habs2 with _ h2
        exact List.filterMap_eq_nil_iff.mp h2
      obtain ⟨t, rfl⟩ : ∃ t, base = 47 :: t := by
        cases base with
        | nil => cases hhead
        | cons b bt =>
          simp at hhead
          exact ⟨bt, by rw [hhead]⟩
      have hbody_pieces :
          ∀ p ∈ splitSep ((47 :: t).drop (lenBeforeBody (47 :: t))), parseSingle p = none := by
        rw [lbb_head47 (47 :: t) rfl]
        intro p hp
        apply hallnone
        show p ∈ splitSep (47 :: t)
        have hss : splitSep (47 :: t) = [] :: splitSep t := by
          simp [splitSep]
        rw [hss]
        exact List.mem_cons_of_mem _ hp
      obtain ⟨q, hq⟩ := bpl_all_none ((47 :: t).length) (47 :: t) hbody_pieces
      simp only [pbPop, pbParent, hq]
      rw [if_pos (show (47 :: t).head? = some 47 from rfl)]
  have hcomp : components [46, 46] = [PComponent.parentDir] := by decide
  have habs : isAbsolute [46, 46] = false := by decide
  simp [resolve, habs, hcomp, resolveStep, hpop, hv]

/-- Witness for C6 at the root path `"/"`. -/
theorem resolve_parentdir_at_root_witness :
    resolve [47] [46, 46] = .ok [47] :=
  resolve_parentdir_at_root [47] (by decide) (Or.inr (by decide))

/-- C5: for every base path that ends in a normal segment (a non-empty,
trim-clean buffer `base` pushed with a separator-free segment `seg` that is
neither `.` nor `..`), `resolve(base/seg, "..")` removes exactly that last
segment and returns `base`; and for every valid base, `resolve(base, ".")`
returns the base unchanged. -/
theorem resolve_parent_and_cur (base seg : List Nat) (hb : base ≠ [])
    (hvb : validUtf8 base = true) (htrim : trimRight base = base)
    (hseg : parseSingle seg = some (.normal seg)) (hsep : 47 ∉ seg) :
    resolve (pbPush base seg) [46, 46] = .ok base ∧
    (∀ b2 : List Nat, validUtf8 b2 = true → resolve b2 [46] = .ok b2) := by
  constructor
  · have hpop := pbPop_push_seg base seg hb htrim hseg hsep
    have hcomp : components [46, 46] = [PComponent.parentDir] := by decide
    have habs : isAbsolute [46, 46] = false := by decide
    simp [resolve, habs, hcomp, resolveStep, hpop, hvb]
  · intro b2 hv2
    have hcomp : components [46] = [PComponent.curDir] := by decide
    have habs : isAbsolute [46] = false := by decide
    simp [resolve, habs, hcomp, resolveStep, hv2]

/-- Witness for C5 at `base = "/home"`, `seg = "user"`, matching the
specification's concrete scenarios `resolve("/home/user", "../test.txt") =
"/home/test.txt"` and `resolve("/home/user", "./test.txt") =
"/home/user/test.txt"` (checked directly alongside). -/
theorem resolve_parent_and_cur_witness :
    resolve (pbPush [47, 104, 111, 109, 101] [117, 115, 101, 114]) [46, 46] =
      .ok [47, 104, 111, 109, 101] ∧
    resolve [47, 104, 111, 109, 101] [46] = .ok [47, 104, 111, 109, 101] ∧
    resolve [47, 104, 111, 109, 101, 47, 117, 115, 101, 114]
      [46, 46, 47, 116, 46, 116, 120, 116] = .ok [47, 104, 111, 109, 101, 47, 116, 46, 116, 120, 116] ∧
    resolve [47, 104, 111, 109, 101, 47, 117, 115, 101, 114]
      [46, 47, 116, 46, 116, 120, 116] =
      .ok [47, 104, 111, 109, 101, 47, 117, 115, 101, 114, 47, 116, 46, 116, 120, 116] :=
  ⟨(resolve_parent_and_cur [47, 104, 111, 109, 101] [117, 115, 101, 114] (by decide)
      (by decide) (by decide) (by decide) (by decide)).1,
   (resolve_parent_and_cur [47, 104, 111, 109, 101] [117, 115, 101, 114] (by decide)
      (by decide) (by decide) (by decide) (by decide)).2 [47, 104, 111, 109, 101] (by decide),
   rfl, rfl⟩

/-- C10: `resolve` is total over valid UTF-8 inputs: for every pair of valid
UTF-8 byte strings the result is `Ok` — the accumulator starts from a valid
UTF-8 string, every pushed segment is a chunk of the valid input, and push,
pop and the defensive root reset all preserve UTF-8 validity, so the final
`to_str` conversion (the `InvalidEncoding` branch) cannot fail. -/
theorem resolve_total (base input : List Nat) (hb : validUtf8 base = true)
    (hi : validUtf8 input = true) : ∃ out, resolve base input = .ok out := by
  by_cases habs : isAbsolute input = true
  · exact ⟨input, by simp [resolve, habs, hi]⟩
  · have hfalse : isAbsolute input = false := by
      cases hx : isAbsolute input
      · rfl
      · exact absurd hx habs
    have hvout := foldl_resolveStep_valid (components input) base hb
      (fun nm hm => components_names_valid input hi nm hm)
    exact ⟨(components input).foldl resolveStep base, by simp [resolve, hfalse, hvout]⟩

/-- Witness for C10 at `base = "/a"`, `input = "b/../c"`. -/
theorem resolve_total_witness :
    ∃ out, resolve [47, 97] [98, 47, 46, 46, 47, 99] = .ok out :=
  resolve_total [47, 97] [98, 47, 46, 46, 47, 99] (by decide) (by decide)

/-- C4: if the input is an absolute path, `resolve` returns it verbatim (on
Unix the platform separator is already `/`, so separator normalization is the
identity there) and the base has no effect on the result. -/
theorem resolve_absolute_ignores_base (base b1 b2 input : List Nat)
    (habs : isAbsolute input = true) (hv : validUtf8 input = true) :
    resolve base input = .ok input ∧ resolve b1 input = resolve b2 input := by
  constructor
  · simp [resolve, habs, hv]
  · simp [resolve, habs]

/-- Witness for C4 at `base = "c"`/`"d"` and `input = "/a"`. -/
theorem resolve_absolute_ignores_base_witness :
    resolve [99] [47, 97] = .ok [47, 97] ∧ resolve [99] [47, 97] = resolve [100] [47, 97] :=
  resolve_absolute_ignores_base [99] [99] [100] [47, 97] (by decide) (by decide)

/-- C2 counterexample: mode `"444"` parses to `0o444 = 292`, which has all the
`0o444` bits set, yet the non-POSIX branch of `chmod_sync` clears the
read-only flag (makes the target writable) — the repository's own Windows test
(`chmod_sync("777", ..)` then `assert!(!readonly)`) exercises exactly this
behaviour; the claim says such a mode must set the flag. -/
theorem chmod_win_claim_false_at_444 :
    u32_from_str_radix8 "444" = some 292 ∧ Nat.land 292 292 ≠ 0 ∧
    chmod_sync_win "444" = .ok (.setReadonly false) := by
  refine ⟨by decide, by decide, rfl⟩

/-- C2 amended: on the platform without POSIX-style bit-level permissions, for
every valid octal mode string, if none of the `0o444` bits are set in the
parsed mode the target is made read-only, and otherwise it is made
writable (the converse of the claimed direction). -/
theorem chmod_win_readonly_flag (mode : String) (m : Nat)
    (h : u32_from_str_radix8 mode = some m) :
    (Nat.land m 292 = 0 → chmod_sync_win mode = .ok (.setReadonly true)) ∧
    (Nat.land m 292 ≠ 0 → chmod_sync_win mode = .ok (.setReadonly false)) := by
  constructor
  · intro hz; simp [chmod_sync_win, h, hz]
  · intro hnz; simp [chmod_sync_win, h, hnz]

/-- Witness for the amended C2: `"200"` (no read bits) becomes read-only,
`"444"` (read bits) becomes writable. -/
theorem chmod_win_readonly_flag_witness :
    chmod_sync_win "200" = .ok (.setReadonly true) ∧
    chmod_sync_win "444" = .ok (.setReadonly false) :=
  ⟨(chmod_win_readonly_flag "200" 128 (by decide)).1 (by decide),
   (chmod_win_readonly_flag "444" 292 (by decide)).2 (by decide)⟩

/-- C3 counterexample: `resolve("/a", "b\c")` succeeds and returns
`"/a/b\c"`, which contains a backslash — on Unix `\` is an ordinary filename
byte and `resolve` applies no separator normalization. -/
theorem resolve_output_can_contain_backslash :
    resolve [47, 97] [98, 92, 99] = .ok [47, 97, 47, 98, 92, 99] ∧
    92 ∈ [47, 97, 47, 98, 92, 99] := by
  exact ⟨rfl, by decide⟩

/-- C3 amended: `normalize_path` output never contains a backslash, so the
path `get_filepath` hands to the platform canonicalizer is backslash-free and
its successful result is exactly the canonicalizer's output for that
backslash-free input; `resolve`, by contrast, applies no separator
normalization and its output can contain backslashes. -/
theorem normalize_path_no_backslash (s : List Nat)
    (canon : List Nat → Except String (List Nat)) (p r : List Nat)
    (h : get_filepath canon p = .ok r) :
    92 ∉ normalize_path s ∧ canon (normalize_path p) = .ok r := by
  constructor
  · intro hmem
    rw [normalize_path] at hmem
    obtain ⟨b, _, hb⟩ := List.mem_map.mp hmem
    by_cases h92 : b = 92 <;> simp [h92] at hb
  · rw [get_filepath] at h
    cases hc : canon (normalize_path p) with
    | error e => rw [hc] at h; exact absurd h (by simp)
    | ok real =>
      rw [hc] at h
      by_cases hval : validUtf8 real = true
      · simp [hval] at h; rw [h]
      · simp [Bool.not_eq_true] at hval
        simp [hval] at h

/-- Witness for the amended C3 with the identity canonicalizer and the path
`"/\a"`, whose normalization is `"//a"`. -/
theorem normalize_path_no_backslash_witness :
    92 ∉ normalize_path [47, 92, 97] ∧
    (fun q : List Nat => Except.ok (ε := String) q) (normalize_path [47, 92, 97]) =
      .ok [47, 47, 97] :=
  normalize_path_no_backslash [47, 92, 97] (fun q => Except.ok q) [47, 92, 97] [47, 47, 97] rfl

/-- C8: whenever the platform canonicalizer fails on the normalized path,
`get_filepath` returns the `NotFound`-style error wrapping that underlying
I/O error, and returns no path string. -/
theorem get_filepath_not_found (canon : List Nat → Except String (List Nat))
    (p : List Nat) (e : String) (h : canon (normalize_path p) = .error e) :
    get_filepath canon p = .error (.notFound e) ∧ ∀ r, get_filepath canon p ≠ .ok r := by
  refine ⟨by simp [get_filepath, h], ?_⟩
  intro r
  simp [get_filepath, h]

/-- Witness for C8: a canonicalizer that reports a missing file on the path
`"nope"`. -/
theorem get_filepath_not_found_witness :
    get_filepath (fun _ => .error "No such file or directory")
      [110, 111, 112, 101] = .error (.notFound "No such file or directory") :=
  (get_filepath_not_found (fun _ => .error "No such file or directory")
    [110, 111, 112, 101] "No such file or directory" rfl).1

/-- C9: the blocking and suspending hashers agree: the same successful digest
(here the identical byte stream fed to SHA-256, of which the rendered hex
digest is a pure function) for every path, and an error in exactly the same
cases. -/
theorem hash_sync_agrees_with_hash (fs : HashFs) (p : List Nat) :
    (∀ d, hash_sync fs p = .ok d ↔ hash fs p = .ok d) ∧
    (hash_sync fs p).isOk = (hash fs p).isOk := by
  cases hgf : get_filepath fs.canonicalize p with
  | error e => simp [hash_sync, hash, hgf, Except.isOk, Except.toBool]
  | ok path =>
    by_cases hlen : path.length = 0
    · simp [hash_sync, hash, hgf, hlen, Except.isOk, Except.toBool]
    · cases hor : fs.openRead path with
      | error e2 => simp [hash_sync, hash, hgf, hlen, hor, Except.isOk, Except.toBool]
      | ok content => simp [hash_sync, hash, hgf, hlen, hor, hashReadLoop_sync_eq_async, Except.isOk, Except.toBool]

/-! ## The directory walker -/

/-- The inner entry loop adds exactly the listing's regular-file bytes to the
total and pushes exactly the listing's directory entries (in reverse, since
the worklist is a stack). -/
theorem dirEntriesLoop_spec :
    ∀ (es : FsEntries) (t : Nat) (s : List FsNode),
      dirEntriesLoop es (t, s) = (t + entsFileSum es, (entsDirs es).reverse ++ s)
  | .nil, t, s => by simp [dirEntriesLoop, entsFileSum, entsDirs]
  | .cons name (.file k) rest, t, s => by
    rw [dirEntriesLoop]
    have hstep : dirSizeStep (t, s) (FsNode.file k) = (t + k, s) := rfl
    rw [hstep, dirEntriesLoop_spec rest]
    simp [entsFileSum, entsDirs, Nat.add_assoc]
  | .cons name (.dir d) rest, t, s => by
    rw [dirEntriesLoop]
    have hstep : dirSizeStep (t, s) (FsNode.dir d) = (t, FsNode.dir d :: s) := rfl
    rw [hstep, dirEntriesLoop_spec rest]
    simp [entsFileSum, entsDirs]
  | .cons name (.symlink tg) rest, t, s => by
    rw [dirEntriesLoop]
    have hstep : dirSizeStep (t, s) (FsNode.symlink tg) = (t, s) := rfl
    rw [hstep, dirEntriesLoop_spec rest]
    simp [entsFileSum, entsDirs]

/-- Everything `entsDirs` collects is a directory node. -/
theorem entsDirs_are_dirs : ∀ es : FsEntries, ∀ p ∈ entsDirs es, ∃ d, p = FsNode.dir d
  | .nil, p, hp => by simp [entsDirs] at hp
  | .cons name (.file k) rest, p, hp =>
    entsDirs_are_dirs rest p (by simpa [entsDirs] using hp)
  | .cons name (.symlink tg) rest, p, hp =>
    entsDirs_are_dirs rest p (by simpa [entsDirs] using hp)
  | .cons name (.dir d) rest, p, hp => by
    rcases (by simpa [entsDirs] using hp : p = FsNode.dir d ∨ p ∈ entsDirs rest) with h | h
    · exact ⟨d, h⟩
    · exact entsDirs_are_dirs rest p h

/-- The nodes pushed from one listing weigh no more than the listing. -/
theorem entsDirs_count_le : ∀ es : FsEntries, ((entsDirs es).map nodeCount).sum ≤ entsCount es
  | .nil => by simp [entsDirs, entsCount]
  | .cons name (.file k) rest => by
    rw [entsCount]
    simpa [entsDirs] using Nat.le_trans (entsDirs_count_le rest) (Nat.le_add_left _ _)
  | .cons name (.symlink tg) rest => by
    rw [entsCount]
    simpa [entsDirs] using Nat.le_trans (entsDirs_count_le rest) (Nat.le_add_left _ _)
  | .cons name (.dir d) rest => by
    rw [entsCount]
    simp only [entsDirs, List.map_cons, List.sum_cons]
    exact Nat.add_le_add_left (entsDirs_count_le rest) _

/-- `entsSkip` splits into the file bytes of the listing plus the skip-sizes
of its directory entries (symlink entries contribute nothing). -/
theorem entsSkip_decompose :
    ∀ es : FsEntries, entsSkip es = entsFileSum es + ((entsDirs es).map skipSize).sum
  | .nil => by simp [entsSkip, entsFileSum, entsDirs]
  | .cons name (.file k) rest => by
    simp [entsSkip, entsFileSum, entsDirs, skipSize, entsSkip_decompose rest]; omega
  | .cons name (.symlink tg) rest => by
    simp [entsSkip, entsFileSum, entsDirs, skipSize, entsSkip_decompose rest]
  | .cons name (.dir d) rest => by
    simp [entsSkip, entsFileSum, entsDirs, skipSize, entsSkip_decompose rest]; omega

/-- Loop invariant of the walker: started on a stack of directory nodes with
enough fuel, the loop returns the running total plus the symlink-skipping
sizes of everything on the stack. -/
theorem get_dir_size_loop_spec :
    ∀ fuel stack total, (∀ p ∈ stack, ∃ d, p = FsNode.dir d) →
      (stack.map nodeCount).sum < fuel →
      get_dir_size_loop fuel stack total = .ok (total + (stack.map skipSize).sum) := by
  intro fuel
  induction fuel with
  | zero => intro stack total _ hc; omega
  | succ n ih =>
    intro stack total hdirs hc
    cases stack with
    | nil => simp [get_dir_size_loop]
    | cons p rest =>
      obtain ⟨d, rfl⟩ := hdirs _ (List.mem_cons_self _ _)
      rw [get_dir_size_loop]
      simp only [readDirNode]
      rw [dirEntriesLoop_spec]
      simp only []
      rw [ih]
      · rw [List.map_append, List.sum_append, List.map_reverse, List.sum_reverse]
        have hds : entsSkip d = entsFileSum d + ((entsDirs d).map skipSize).sum :=
          entsSkip_decompose d
        simp only [List.map_cons, List.sum_cons] at *
        have hsk : skipSize (FsNode.dir d) = entsSkip d := rfl
        rw [hsk, hds]
        congr 1
        omega
      · intro q hq
        rcases List.mem_append.mp hq with h | h
        · exact entsDirs_are_dirs d q (List.mem_reverse.mp h)
        · exact hdirs q (List.mem_cons_of_mem _ h)
      · rw [List.map_append, List.sum_append, List.map_reverse, List.sum_reverse]
        have h1 : ((entsDirs d).map nodeCount).sum ≤ entsCount d := entsDirs_count_le d
        have h2 : nodeCount (FsNode.dir d) = 1 + entsCount d := rfl
        simp only [List.map_cons, List.sum_cons] at hc
        omega

/-- The walk of any directory node terminates with the symlink-skipping total
(shared helper for the walker claims). -/
theorem get_dir_size_dir_eq_skip (es : FsEntries) :
    get_dir_size (FsNode.dir es) = .ok (skipSize (FsNode.dir es)) := by
  rw [get_dir_size]
  rw [get_dir_size_loop_spec (nodeCount (FsNode.dir es) + 1) [FsNode.dir es] 0 ?_ ?_]
  · simp
  · intro p hp
    rcases List.mem_singleton.mp hp with rfl
    exact ⟨es, rfl⟩
  · simp

mutual
/-- On a symlink-free subtree the symlink-skipping size is the plain recursive
sum of regular-file byte lengths. -/
theorem skipSize_eq_sumFileBytes : ∀ n : FsNode, noSymlinks n = true → skipSize n = sumFileBytes n
  | .file _, _ => rfl
  | .symlink _, h => by simp [noSymlinks] at h
  | .dir es, h => by
    have hes : entsNoSymlinks es = true := by simpa [noSymlinks] using h
    have := entsSkip_eq_entsSumFileBytes es hes
    simpa [skipSize, sumFileBytes] using this
/-- Listing-level companion of `skipSize_eq_sumFileBytes`. -/
theorem entsSkip_eq_entsSumFileBytes :
    ∀ es : FsEntries, entsNoSymlinks es = true → entsSkip es = entsSumFileBytes es
  | .nil, _ => rfl
  | .cons _ n rest, h => by
    have hh : noSymlinks n = true ∧ entsNoSymlinks rest = true := by
      simpa [entsNoSymlinks, Bool.and_eq_true] using h
    rw [entsSkip, entsSumFileBytes, skipSize_eq_sumFileBytes n hh.1,
      entsSkip_eq_entsSumFileBytes rest hh.2]
end

/-- Folding a listing through the inner loop gives the same total and worklist
as folding the listing with its symlink entries removed. -/
theorem dirEntriesLoop_drop_symlinks :
    ∀ (es : FsEntries) (acc : Nat × List FsNode),
      dirEntriesLoop es acc = dirEntriesLoop (dropSymlinkEntries es) acc
  | .nil, acc => rfl
  | .cons name (.file k) rest, acc => by
    have hd : dropSymlinkEntries (.cons name (.file k) rest) =
        .cons name (.file k) (dropSymlinkEntries rest) := rfl
    rw [hd, dirEntriesLoop, dirEntriesLoop]
    exact dirEntriesLoop_drop_symlinks rest _
  | .cons name (.dir d) rest, acc => by
    have hd : dropSymlinkEntries (.cons name (.dir d) rest) =
        .cons name (.dir d) (dropSymlinkEntries rest) := rfl
    rw [hd, dirEntriesLoop, dirEntriesLoop]
    exact dirEntriesLoop_drop_symlinks rest _
  | .cons name (.symlink tg) rest, acc => by
    have hd : dropSymlinkEntries (.cons name (.symlink tg) rest) = dropSymlinkEntries rest := rfl
    rw [hd, dirEntriesLoop]
    have hstep : dirSizeStep acc (FsNode.symlink tg) = acc := rfl
    rw [hstep]
    exact dirEntriesLoop_drop_symlinks rest acc

/-- C1: a symbolic-link directory entry (whether it points at a file or at a
directory) is skipped by `get_dir_size`: the inner-loop step leaves both the
running total and the worklist untouched, a whole listing folds the same as
the listing with its symlink entries removed, and consequently the walk of any
directory terminates (never exhausts the `nodeCount`-based fuel, so a cyclic
symlink graph cannot cause unbounded growth) with the symlink-skipping
total. -/
theorem get_dir_size_skips_symlinks :
    (∀ (acc : Nat × List FsNode) (t : FsNode), dirSizeStep acc (FsNode.symlink t) = acc) ∧
    (∀ (es : FsEntries) (acc : Nat × List FsNode),
      dirEntriesLoop es acc = dirEntriesLoop (dropSymlinkEntries es) acc) ∧
    (∀ es : FsEntries, get_dir_size (FsNode.dir es) = .ok (skipSize (FsNode.dir es))) := by
  have hstep : ∀ (acc : Nat × List FsNode) (t : FsNode),
      dirSizeStep acc (FsNode.symlink t) = acc := by
    intro acc t; rfl
  refine ⟨hstep, dirEntriesLoop_drop_symlinks, fun es => get_dir_size_dir_eq_skip es⟩

/-- C7: on a subtree with no symbolic links, `get_dir_size` of a directory
returns exactly the recursive sum of the byte lengths of its regular files. -/
theorem get_dir_size_exact_sum (es : FsEntries) (h : noSymlinks (FsNode.dir es) = true) :
    get_dir_size (FsNode.dir es) = .ok (sumFileBytes (FsNode.dir es)) := by
  have hmain := get_dir_size_dir_eq_skip es
  rwa [skipSize_eq_sumFileBytes (FsNode.dir es) h] at hmain

/-- Witness for C7: a directory with a 3-byte file and a 4-byte file has
total size 7. -/
theorem get_dir_size_exact_sum_witness :
    get_dir_size (FsNode.dir (.cons "a.txt" (.file 3) (.cons "b.txt" (.file 4) .nil))) =
      .ok 7 := by
  have h := get_dir_size_exact_sum (.cons "a.txt" (.file 3) (.cons "b.txt" (.file 4) .nil))
    (by decide)
  have h7 : sumFileBytes (FsNode.dir (.cons "a.txt" (.file 3) (.cons "b.txt" (.file 4) .nil))) = 7 := rfl
  rwa [h7] at h

end Afs
